import Mathlib

/-!
# Verification of the KTLX container decoder (`phypno/ioeeg/ktlx.py`)

Shallow embedding of the KTLX reader:
* the per-sample delta/escape codec of `_read_erd` (sample loop, per-channel
  delta loop, out-of-band absolute-value loop, delta-mask handling),
* the calibration table `_calculate_conversion`,
* the header parser `_read_hdr_file`,
* the segment resolution of `Ktlx.return_dat`,
* the decoded-segment cache (the `memmap` file in `temp_dir`),
* the video/sample correlation of `Ktlx._read_movies`.

Bytes are modelled as `Nat` (each entry `< 256` in a real file), byte strings
as `List Nat`; Python slicing `b[i:i+n]` becomes `sliceBytes` (which, like the
slice, is shorter near the end of the stream).  `numpy.int32` storage is
modelled as `Int` reduced by `wrap32` (two's-complement wrap-around at 32
bits).  `struct.unpack` of a wrongly sized buffer raises `struct.error`;
fallible operations return `Except`.  Floating point arithmetic of the
calibration / correlation paths is modelled over `ℚ` (the claims under study
concern the structure of the computation, not IEEE rounding).
-/

namespace Ktlx

/-- Python `b[i:i+n]` on a byte string: at most `n` bytes starting at `i`. -/
def sliceBytes (bytes : List Nat) (i n : Nat) : List Nat :=
  (bytes.drop i).take n

/-- Python `struct.unpack('b', v)`: signed 8-bit value of one byte. -/
def int8val (b : Nat) : Int :=
  if b < 128 then (b : Int) else (b : Int) - 256

/-- Python `struct.unpack('h', v)`: signed little-endian 16-bit value of two bytes. -/
def int16val (b0 b1 : Nat) : Int :=
  if b0 + 256 * b1 < 2 ^ 15 then ((b0 + 256 * b1 : Nat) : Int)
  else ((b0 + 256 * b1 : Nat) : Int) - 2 ^ 16

/-- Python `struct.unpack('i', v)`: signed little-endian 32-bit value of four bytes. -/
def int32val (b0 b1 b2 b3 : Nat) : Int :=
  if b0 + 256 * b1 + 65536 * b2 + 16777216 * b3 < 2 ^ 31 then
    ((b0 + 256 * b1 + 65536 * b2 + 16777216 * b3 : Nat) : Int)
  else ((b0 + 256 * b1 + 65536 * b2 + 16777216 * b3 : Nat) : Int) - 2 ^ 32

/-- Signed 16-bit value of a 2-byte list (list form used in theorem statements;
the decoder itself only applies it to slices of length 2). -/
def int16valList : List Nat → Int
  | [b0, b1] => int16val b0 b1
  | _ => 0

/-- Signed 8-bit value of a 1-byte list. -/
def int8valList : List Nat → Int
  | [b0] => int8val b0
  | _ => 0

/-- Signed 32-bit value of a 4-byte list. -/
def int32valList : List Nat → Int
  | [b0, b1, b2, b3] => int32val b0 b1 b2 b3
  | _ => 0

/-- Two's-complement reduction to a signed 32-bit integer: the value stored by
an assignment into the `numpy.int32` output array. -/
def wrap32 (x : Int) : Int :=
  (x + 2 ^ 31) % 2 ^ 32 - 2 ^ 31

/-- The decoder's output buffer (`output[channel, sample]`), total over
indices; entries outside `n_chan × n_samples` are never written. -/
def Buf : Type := Nat → Nat → Int

/-- Point update `output[c, s] = v`. -/
def setBuf (buf : Buf) (c s : Nat) (v : Int) : Buf :=
  fun c' s' => if c' = c ∧ s' = s then v else buf c' s'

/-- The all-zero buffer: a freshly created `memmap(..., mode='w+')` is
zero-filled. -/
def zeroBuf : Buf := fun _ _ => 0

/-- Python `output[i_c, sam - 1]`: for `sam = 0` the index `-1` wraps around
to the last column of the buffer. -/
def prevCol (sam nSamples : Nat) : Nat :=
  if sam = 0 then nSamples - 1 else sam - 1

/-- Constant `BITS_IN_BYTE` of the source. -/
def BITS_IN_BYTE : Nat := 8

/-- Source `int(ceil(n_chan / BITS_IN_BYTE))`: length of the delta mask in bytes
(`n_chan / 8` is exact in binary floating point for all realistic counts). -/
def l_deltamask (nChan : Nat) : Nat :=
  (nChan + (BITS_IN_BYTE - 1)) / BITS_IN_BYTE

/-- The escape sentinel `abs_delta`: `b'\x80'` for file schema 7 and
`b'\xff\xff'` for schema 8/9. -/
def absDelta (schema : Nat) : List Nat :=
  if schema = 7 then [0x80] else [0xff, 0xff]

/-- Source `'{0:08b}'.format(x)[::-1]` for each mask byte, concatenated: the bits of
each byte, least-significant first. -/
def deltamaskBits (dmBytes : List Nat) : List Bool :=
  (dmBytes.map (fun b => (List.range 8).map (Nat.testBit b))).flatten

/-- Decode error together with the output buffer at the moment the exception
is raised (the partially written `memmap` file persists on disk). -/
def DecErr : Type := String × Buf

/-- The per-channel loop of `_read_erd` (`for i_c, m in enumerate(deltamask[:n_chan])`):
reads 1 or 2 raw bytes per channel according to the mask bit, flags the
channel in `absL` when the raw bytes equal the sentinel `ad`, and otherwise
adds the signed delta to the channel's previous value.  Arguments beyond the
stream: current channel index `i_c`, byte cursor `i`, output buffer, and the
list of channels flagged absolute so far (in flag order). -/
def chanLoop (bytes ad : List Nat) (sam nSamples : Nat) :
    List Bool → Nat → Nat → Buf → List Nat → Except DecErr (Nat × Buf × List Nat)
  | [], _, i, buf, absL => .ok (i, buf, absL)
  | m :: ms, i_c, i, buf, absL =>
    let w := if m then 2 else 1
    let val := sliceBytes bytes i w
    if val = ad then
      chanLoop bytes ad sam nSamples ms (i_c + 1) (i + w) buf (absL ++ [i_c])
    else if m then
      match val with
      | [b0, b1] =>
        chanLoop bytes ad sam nSamples ms (i_c + 1) (i + w)
          (setBuf buf i_c sam (wrap32 (buf i_c (prevCol sam nSamples) + int16val b0 b1))) absL
      | _ => .error ("struct.error", buf)
    else
      match val with
      | [b0] =>
        chanLoop bytes ad sam nSamples ms (i_c + 1) (i + w)
          (setBuf buf i_c sam (wrap32 (buf i_c (prevCol sam nSamples) + int8val b0))) absL
      | _ => .error ("struct.error", buf)

/-- The absolute-value loop of `_read_erd` (`for i_c, to_read in enumerate(absvalue)`):
for every flagged channel, in flag order, reads a 4-byte signed integer and
assigns it directly (not relative to the previous value). -/
def absLoop (bytes : List Nat) (sam : Nat) :
    List Nat → Nat → Buf → Except DecErr (Nat × Buf)
  | [], i, buf => .ok (i, buf)
  | c :: cs, i, buf =>
    match sliceBytes bytes i 4 with
    | [b0, b1, b2, b3] =>
      absLoop bytes sam cs (i + 4) (setBuf buf c sam (int32val b0 b1 b2 b3))
    | _ => .error ("struct.error", buf)

/-- The delta-mask part of one sample: for schema 7 a "fake" all-zero mask
consuming no bytes (`deltamask = '0' * n_chan`), for schema 8/9 a read of
`l_deltamask` bytes whose bits are consumed least-significant first
(`unpack` raises `struct.error` on a short read).  Returns the mask and the
advanced cursor. -/
def maskRead (schema nChan : Nat) (bytes : List Nat) (i1 : Nat) (buf : Buf) :
    Except DecErr (List Bool × Nat) :=
  if schema = 7 then .ok (List.replicate nChan false, i1)
  else if (sliceBytes bytes i1 (l_deltamask nChan)).length = l_deltamask nChan then
    .ok (deltamaskBits (sliceBytes bytes i1 (l_deltamask nChan)), i1 + l_deltamask nChan)
  else .error ("struct.error", buf)

/-- One iteration of the sample loop of `_read_erd`: event byte, delta mask,
per-channel deltas, out-of-band absolute values.  Returns `none` when the
event byte is empty (`if eventbite == b'': break`).  The source `assert`s
that the event byte is `b'\x00'` or `b'\x01'` but swallows the failure
(`except: Exception(...)` constructs an exception without raising it), so an
invalid event byte has no observable effect. -/
def decodeSample (schema nChan nSamples : Nat) (bytes : List Nat)
    (sam i : Nat) (buf : Buf) : Except DecErr (Option (Nat × Buf)) :=
  let eventbite := sliceBytes bytes i 1
  if eventbite = [] then .ok none
  else
    match maskRead schema nChan bytes (i + 1) buf with
    | .error e => .error e
    | .ok (deltamask, i2) =>
      match chanLoop bytes (absDelta schema) sam nSamples (deltamask.take nChan) 0 i2 buf [] with
      | .error e => .error e
      | .ok (i3, buf3, absL) =>
        match absLoop bytes sam absL i3 buf3 with
        | .error e => .error e
        | .ok (i4, buf4) => .ok (some (i4, buf4))

/-- The sample loop `for sam in range(n_samples)` of `_read_erd`. -/
def sampleLoop (schema nChan nSamples : Nat) (bytes : List Nat) :
    List Nat → Nat → Buf → Except DecErr Buf
  | [], _, buf => .ok buf
  | sam :: rest, i, buf =>
    match decodeSample schema nChan nSamples bytes sam i buf with
    | .error e => .error e
    | .ok none => .ok buf
    | .ok (some (i', buf')) => sampleLoop schema nChan nSamples bytes rest i' buf'

/-- Start of the sample stream: `i = 4560` for schema 7, `i = 8656` for
schema 8/9. -/
def initOffset (schema : Nat) : Nat :=
  if schema = 7 then 4560 else 8656

/-- The raw decode of `_read_erd` (the `mode='w+'` branch): zero-filled
output, sample loop from the schema-dependent start offset.  The result is
the raw `int32` matrix, before calibration. -/
def read_erd_raw (schema nChan nSamples : Nat) (bytes : List Nat) :
    Except DecErr Buf :=
  sampleLoop schema nChan nSamples bytes (List.range nSamples) (initOffset schema) zeroBuf

/-! ### Cursor-shift lemmas

The decode loops address the stream only at positions at or after the
cursor, so a common prefix of the stream can be stripped as long as the
cursor is shifted accordingly.  These lemmas let concrete theorems evaluate
streams without materialising the 4560/8656 header bytes. -/

theorem sliceBytes_shift (pre rest : List Nat) (k n : Nat) :
    sliceBytes (pre ++ rest) (pre.length + k) n = sliceBytes rest k n := by
  simp [sliceBytes, List.drop_append]

theorem chanLoop_shift (pre rest ad : List Nat) (sam nSamples : Nat) :
    ∀ (ms : List Bool) (i_c k : Nat) (buf : Buf) (absL : List Nat),
      chanLoop (pre ++ rest) ad sam nSamples ms i_c (pre.length + k) buf absL
      = (chanLoop rest ad sam nSamples ms i_c k buf absL).map
          (fun r => (pre.length + r.1, r.2)) := by
  intro ms
  induction ms with
  | nil => intro i_c k buf absL; rfl
  | cons m ms ih =>
    intro i_c k buf absL
    simp only [chanLoop, sliceBytes_shift, Nat.add_assoc]
    repeat' split
    all_goals first
      | exact ih ..
      | rfl

theorem absLoop_shift (pre rest : List Nat) (sam : Nat) :
    ∀ (cs : List Nat) (k : Nat) (buf : Buf),
      absLoop (pre ++ rest) sam cs (pre.length + k) buf
      = (absLoop rest sam cs k buf).map (fun r => (pre.length + r.1, r.2)) := by
  intro cs
  induction cs with
  | nil => intro k buf; rfl
  | cons c cs ih =>
    intro k buf
    simp only [absLoop, sliceBytes_shift, Nat.add_assoc]
    repeat' split
    all_goals first
      | exact ih ..
      | rfl

theorem maskRead_shift (pre rest : List Nat) (schema nChan k : Nat) (buf : Buf) :
    maskRead schema nChan (pre ++ rest) (pre.length + k) buf
    = (maskRead schema nChan rest k buf).map (fun r => (r.1, pre.length + r.2)) := by
  unfold maskRead
  simp only [sliceBytes_shift, Nat.add_assoc]
  split
  · rfl
  · split
    · rfl
    · rfl

theorem decodeSample_shift (pre rest : List Nat) (schema nChan nSamples sam k : Nat)
    (buf : Buf) :
    decodeSample schema nChan nSamples (pre ++ rest) sam (pre.length + k) buf
    = (decodeSample schema nChan nSamples rest sam k buf).map
        (Option.map (fun r => (pre.length + r.1, r.2))) := by
  unfold decodeSample
  simp only [sliceBytes_shift, Nat.add_assoc, maskRead_shift]
  by_cases hev : sliceBytes rest k 1 = []
  · simp only [hev, reduceIte]
    rfl
  · simp only [hev, if_neg, if_false, reduceIte]
    cases hm : maskRead schema nChan rest (k + 1) buf with
    | error e => rfl
    | ok r =>
      obtain ⟨mask, i2⟩ := r
      simp only [Except.map]
      rw [chanLoop_shift]
      cases hc : chanLoop rest (absDelta schema) sam nSamples (mask.take nChan) 0 i2 buf [] with
      | error e => rfl
      | ok rc =>
        obtain ⟨i3, buf3, absL⟩ := rc
        simp only [Except.map]
        rw [absLoop_shift]
        cases ha : absLoop rest sam absL i3 buf3 with
        | error e => rfl
        | ok ra => rfl

theorem sampleLoop_shift (pre rest : List Nat) (schema nChan nSamples : Nat) :
    ∀ (sams : List Nat) (k : Nat) (buf : Buf),
      sampleLoop schema nChan nSamples (pre ++ rest) sams (pre.length + k) buf
      = sampleLoop schema nChan nSamples rest sams k buf := by
  intro sams
  induction sams with
  | nil => intro k buf; rfl
  | cons sam rest' ih =>
    intro k buf
    simp only [sampleLoop, decodeSample_shift]
    cases h : decodeSample schema nChan nSamples rest sam k buf with
    | error e => rfl
    | ok o =>
      cases o with
      | none => rfl
      | some r => exact ih r.1 r.2

theorem read_erd_raw_padded (schema nChan nSamples : Nat) (rest : List Nat) :
    read_erd_raw schema nChan nSamples (List.replicate (initOffset schema) 0 ++ rest)
    = sampleLoop schema nChan nSamples rest (List.range nSamples) 0 zeroBuf := by
  unfold read_erd_raw
  have h := sampleLoop_shift (List.replicate (initOffset schema) 0) rest
    schema nChan nSamples (List.range nSamples) 0 zeroBuf
  simpa using h

/-! ### Characterisation of the per-channel loop -/

/-- Width in bytes of one channel's raw delta: 2 when its mask bit is set,
1 otherwise. -/
def chanWidth (m : Bool) : Nat := if m then 2 else 1

/-- Signed value of one channel's raw delta bytes, per its mask bit. -/
def deltaVal (m : Bool) (val : List Nat) : Int :=
  if m then int16valList val else int8valList val

/-- Raw delta bytes consumed by the first `k` channels of a mask. -/
def widthSum (ms : List Bool) (k : Nat) : Nat :=
  ((List.range k).map (fun j => chanWidth (ms.getD j false))).sum

theorem widthSum_zero (ms : List Bool) : widthSum ms 0 = 0 := rfl

theorem widthSum_cons (m : Bool) (ms : List Bool) (k : Nat) :
    widthSum (m :: ms) (k + 1) = chanWidth m + widthSum ms k := by
  unfold widthSum
  rw [List.range_succ_eq_map]
  simp [List.map_map, Function.comp_def]

theorem widthSum_congr (ms : List Bool) (f : Nat → Bool) (k : Nat)
    (h : ∀ j, j < k → ms.getD j false = f j) :
    widthSum ms k = ((List.range k).map (fun j => chanWidth (f j))).sum := by
  unfold widthSum
  congr 1
  refine List.map_congr_left ?_
  intro j hj
  rw [h j (List.mem_range.mp hj)]

/-- One unfolding step of `chanLoop`, with the `match` on the raw byte slice
re-expressed as a length test: in the non-sentinel branch `unpack` succeeds
exactly when the slice has the full declared width, and the signed value it
produces is `deltaVal` of the slice. -/
theorem chanLoop_cons_eq (bytes ad : List Nat) (sam nSamples : Nat) (m : Bool)
    (ms : List Bool) (i_c i : Nat) (buf : Buf) (absL : List Nat) :
    chanLoop bytes ad sam nSamples (m :: ms) i_c i buf absL =
      (if sliceBytes bytes i (chanWidth m) = ad then
        chanLoop bytes ad sam nSamples ms (i_c + 1) (i + chanWidth m) buf
          (absL ++ [i_c])
      else if (sliceBytes bytes i (chanWidth m)).length = chanWidth m then
        chanLoop bytes ad sam nSamples ms (i_c + 1) (i + chanWidth m)
          (setBuf buf i_c sam (wrap32 (buf i_c (prevCol sam nSamples)
            + deltaVal m (sliceBytes bytes i (chanWidth m))))) absL
      else .error ("struct.error", buf)) := by
  cases m <;>
    simp only [chanLoop, chanWidth, deltaVal, Bool.false_eq_true, if_false, if_true,
      reduceIte]
  · generalize sliceBytes bytes i 1 = v
    rcases v with _ | ⟨b0, _ | ⟨b1, rest⟩⟩
    · by_cases had : ([] : List Nat) = ad
      · rw [if_pos had, if_pos had]
      · rw [if_neg had, if_neg had]
        rfl
    · by_cases had : [b0] = ad
      · rw [if_pos had, if_pos had]
      · rw [if_neg had, if_neg had]
        rfl
    · by_cases had : b0 :: b1 :: rest = ad
      · rw [if_pos had, if_pos had]
      · rw [if_neg had, if_neg had,
          if_neg (by simp only [List.length_cons]; omega :
            ¬(b0 :: b1 :: rest).length = 1)]
  · generalize sliceBytes bytes i 2 = v
    rcases v with _ | ⟨b0, _ | ⟨b1, _ | ⟨b2, rest⟩⟩⟩
    · by_cases had : ([] : List Nat) = ad
      · rw [if_pos had, if_pos had]
      · rw [if_neg had, if_neg had]
        rfl
    · by_cases had : [b0] = ad
      · rw [if_pos had, if_pos had]
      · rw [if_neg had, if_neg had]
        rfl
    · by_cases had : [b0, b1] = ad
      · rw [if_pos had, if_pos had]
      · rw [if_neg had, if_neg had]
        rfl
    · by_cases had : b0 :: b1 :: b2 :: rest = ad
      · rw [if_pos had, if_pos had]
      · rw [if_neg had, if_neg had,
          if_neg (by simp only [List.length_cons]; omega :
            ¬(b0 :: b1 :: b2 :: rest).length = 2)]

/-- Lemma: `chanLoop` writes only rows `≥ i_c` and only column `sam`. -/
theorem chanLoop_frame (bytes ad : List Nat) (sam nSamples : Nat) :
    ∀ (ms : List Bool) (i_c i : Nat) (buf : Buf) (absL : List Nat)
      (r : Nat × Buf × List Nat),
      chanLoop bytes ad sam nSamples ms i_c i buf absL = .ok r →
      ∀ x y, x < i_c ∨ y ≠ sam → r.2.1 x y = buf x y := by
  intro ms
  induction ms with
  | nil =>
    intro i_c i buf absL r h x y hxy
    cases h
    rfl
  | cons m ms ih =>
    intro i_c i buf absL r h x y hxy
    have hxy' : x < i_c + 1 ∨ y ≠ sam := hxy.imp_left Nat.lt_succ_of_lt
    have hsb : ∀ v : Int, setBuf buf i_c sam v x y = buf x y := by
      intro v
      unfold setBuf
      rcases hxy with hx | hy
      · rw [if_neg]; rintro ⟨rfl, rfl⟩; omega
      · rw [if_neg]; rintro ⟨rfl, rfl⟩; exact hy rfl
    rw [chanLoop_cons_eq] at h
    split at h
    · exact ih _ _ _ _ r h x y hxy'
    · split at h
      · rw [ih _ _ _ _ r h x y hxy']
        exact hsb _
      · exact absurd h (by simp)

/-- The flagged-channel list accumulated by `chanLoop` stays strictly
increasing: channels are flagged in ascending channel order. -/
theorem chanLoop_sorted (bytes ad : List Nat) (sam nSamples : Nat) :
    ∀ (ms : List Bool) (i_c i : Nat) (buf : Buf) (absL : List Nat)
      (r : Nat × Buf × List Nat),
      chanLoop bytes ad sam nSamples ms i_c i buf absL = .ok r →
      absL.Pairwise (· < ·) → (∀ a ∈ absL, a < i_c) →
      r.2.2.Pairwise (· < ·) := by
  intro ms
  induction ms with
  | nil =>
    intro i_c i buf absL r h hp hlt
    cases h
    exact hp
  | cons m ms ih =>
    intro i_c i buf absL r h hp hlt
    have hsnoc : (absL ++ [i_c]).Pairwise (· < ·) := by
      refine List.pairwise_append.mpr ⟨hp, List.pairwise_singleton _ _, ?_⟩
      intro a ha b hb
      rw [List.mem_singleton.mp hb]
      exact hlt a ha
    have hsnoc' : ∀ a ∈ absL ++ [i_c], a < i_c + 1 := by
      intro a ha
      rcases List.mem_append.mp ha with ha | ha
      · exact Nat.lt_succ_of_lt (hlt a ha)
      · rw [List.mem_singleton.mp ha]; omega
    rw [chanLoop_cons_eq] at h
    split at h
    · exact ih _ _ _ _ r h hsnoc hsnoc'
    · split at h
      · exact ih _ _ _ _ r h hp (fun a ha => Nat.lt_succ_of_lt (hlt a ha))
      · exact absurd h (by simp)

/-- The cursor and the flagged-channel list produced by `chanLoop` do not
depend on the contents of the output buffer. -/
theorem chanLoop_indep (bytes ad : List Nat) (sam nSamples : Nat) :
    ∀ (ms : List Bool) (i_c i : Nat) (buf buf' : Buf) (absL : List Nat)
      (r : Nat × Buf × List Nat),
      chanLoop bytes ad sam nSamples ms i_c i buf absL = .ok r →
      ∃ r', chanLoop bytes ad sam nSamples ms i_c i buf' absL = .ok r' ∧
        r'.1 = r.1 ∧ r'.2.2 = r.2.2 := by
  intro ms
  induction ms with
  | nil =>
    intro i_c i buf buf' absL r h
    cases h
    exact ⟨_, rfl, rfl, rfl⟩
  | cons m ms ih =>
    intro i_c i buf buf' absL r h
    rw [chanLoop_cons_eq] at h
    split at h
    · rename_i hv
      obtain ⟨r', hr', h1, h2⟩ := ih _ _ buf buf' _ r h
      exact ⟨r', by rw [chanLoop_cons_eq, if_pos hv]; exact hr', h1, h2⟩
    · split at h
      · rename_i hv hlen
        obtain ⟨r', hr', h1, h2⟩ := ih _ _ _
          (setBuf buf' i_c sam (wrap32 (buf' i_c (prevCol sam nSamples)
            + deltaVal m (sliceBytes bytes i (chanWidth m))))) _ r h
        exact ⟨r', by rw [chanLoop_cons_eq, if_neg hv, if_pos hlen]; exact hr', h1, h2⟩
      · exact absurd h (by simp)

/-- Channels end up flagged absolute exactly through the sentinel comparison:
any member of the final flagged list was already flagged or corresponds to a
mask position whose raw delta bytes equal the sentinel. -/
theorem chanLoop_mem (bytes ad : List Nat) (sam nSamples : Nat) :
    ∀ (ms : List Bool) (i_c i : Nat) (buf : Buf) (absL : List Nat)
      (r : Nat × Buf × List Nat),
      chanLoop bytes ad sam nSamples ms i_c i buf absL = .ok r →
      ∀ c, c ∈ r.2.2 → c ∈ absL ∨ ∃ k m, ms[k]? = some m ∧ c = i_c + k ∧
        sliceBytes bytes (i + widthSum ms k) (chanWidth m) = ad := by
  intro ms
  induction ms with
  | nil =>
    intro i_c i buf absL r h c hc
    cases h
    exact Or.inl hc
  | cons m ms ih =>
    intro i_c i buf absL r h c hc
    rw [chanLoop_cons_eq] at h
    split at h
    · rename_i hv
      rcases ih _ _ _ _ r h c hc with hmem | ⟨k, m', hk, hck, hs⟩
      · rcases List.mem_append.mp hmem with hmem | hmem
        · exact Or.inl hmem
        · refine Or.inr ⟨0, m, by simp, ?_, ?_⟩
          · rw [List.mem_singleton.mp hmem]; omega
          · rw [widthSum_zero, Nat.add_zero]
            exact hv
      · refine Or.inr ⟨k + 1, m', by simpa using hk, by omega, ?_⟩
        rw [widthSum_cons, ← Nat.add_assoc]
        exact hs
    · split at h
      · rcases ih _ _ _ _ r h c hc with hmem | ⟨k, m', hk, hck, hs⟩
        · exact Or.inl hmem
        · refine Or.inr ⟨k + 1, m', by simpa using hk, by omega, ?_⟩
          rw [widthSum_cons, ← Nat.add_assoc]
          exact hs
      · exact absurd h (by simp)

/-- The value decoded for a non-sentinel (delta) channel: its previous value
plus the signed 1- or 2-byte delta, wrapped to `int32`. -/
theorem chanLoop_val (bytes ad : List Nat) (sam nSamples : Nat) :
    ∀ (ms : List Bool) (i_c i : Nat) (buf : Buf) (absL : List Nat)
      (r : Nat × Buf × List Nat),
      chanLoop bytes ad sam nSamples ms i_c i buf absL = .ok r →
      ∀ k m, ms[k]? = some m →
        sliceBytes bytes (i + widthSum ms k) (chanWidth m) ≠ ad →
        r.2.1 (i_c + k) sam
          = wrap32 (buf (i_c + k) (prevCol sam nSamples)
              + deltaVal m (sliceBytes bytes (i + widthSum ms k) (chanWidth m))) := by
  intro ms
  induction ms with
  | nil =>
    intro i_c i buf absL r h k m hk
    simp at hk
  | cons m0 ms ih =>
    intro i_c i buf absL r h k m hk hval
    rw [chanLoop_cons_eq] at h
    cases k with
    | zero =>
      have hm : m0 = m := by simpa using hk
      subst hm
      rw [widthSum_zero, Nat.add_zero] at hval ⊢
      rw [Nat.add_zero]
      split at h
      · exact absurd (by assumption) hval
      · split at h
        · have hfr := chanLoop_frame bytes ad sam nSamples ms (i_c + 1) _ _ _ r h
            i_c sam (Or.inl (Nat.lt_succ_self _))
          rw [hfr]
          unfold setBuf
          rw [if_pos ⟨rfl, rfl⟩]
        · exact absurd h (by simp)
    | succ k =>
      have hk' : ms[k]? = some m := by simpa using hk
      have hoff : i + widthSum (m0 :: ms) (k + 1)
          = (i + chanWidth m0) + widthSum ms k := by
        rw [widthSum_cons, ← Nat.add_assoc]
      rw [hoff] at hval ⊢
      rw [show i_c + (k + 1) = (i_c + 1) + k from by omega]
      split at h
      · exact ih _ _ _ _ r h k m hk' hval
      · split at h
        · rw [ih _ _ _ _ r h k m hk' hval]
          congr 2
          unfold setBuf
          rw [if_neg]
          rintro ⟨h1, _⟩
          omega
        · exact absurd h (by simp)

/-- Lemma: `absLoop` writes only the rows in its channel list (and only column
`sam`). -/
theorem absLoop_frame (bytes : List Nat) (sam : Nat) :
    ∀ (cs : List Nat) (i : Nat) (buf : Buf) (q : Nat × Buf),
      absLoop bytes sam cs i buf = .ok q →
      ∀ x y, x ∉ cs → q.2 x y = buf x y := by
  intro cs
  induction cs with
  | nil =>
    intro i buf q h x y _
    cases h
    rfl
  | cons c cs ih =>
    intro i buf q h x y hx
    simp only [absLoop] at h
    split at h
    · rw [ih _ _ q h x y (fun hin => hx (List.mem_cons_of_mem _ hin))]
      unfold setBuf
      rw [if_neg]
      rintro ⟨rfl, rfl⟩
      exact hx (List.mem_cons_self _ _)
    · exact absurd h (by simp)

/-- The `k`-th flagged channel receives the `k`-th out-of-band 4-byte signed
integer: absolute values are consumed in flag order. -/
theorem absLoop_val (bytes : List Nat) (sam : Nat) :
    ∀ (cs : List Nat) (i : Nat) (buf : Buf) (q : Nat × Buf),
      absLoop bytes sam cs i buf = .ok q →
      cs.Pairwise (· ≠ ·) →
      ∀ k c, cs[k]? = some c →
        q.2 c sam = int32valList (sliceBytes bytes (i + 4 * k) 4) := by
  intro cs
  induction cs with
  | nil =>
    intro i buf q h hp k c hk
    simp at hk
  | cons c0 cs ih =>
    intro i buf q h hp k c hk
    simp only [absLoop] at h
    split at h
    · rename_i b0 b1 b2 b3 heq
      cases k with
      | zero =>
        have hc : c0 = c := by simpa using hk
        subst hc
        have hnotin : c0 ∉ cs := by
          intro hin
          exact (List.pairwise_cons.mp hp).1 c0 hin rfl
        rw [absLoop_frame bytes sam cs _ _ q h c0 sam hnotin]
        unfold setBuf
        rw [if_pos ⟨rfl, rfl⟩, Nat.mul_zero, Nat.add_zero, heq]
        rfl
      | succ k =>
        rw [show i + 4 * (k + 1) = (i + 4) + 4 * k from by omega]
        exact ih _ _ q h (List.Pairwise.of_cons hp) k c (by simpa using hk)
    · exact absurd h (by simp)

/-! ### Delta-mask characterisation -/

theorem deltamaskBits_cons (b : Nat) (rest : List Nat) :
    deltamaskBits (b :: rest)
      = (List.range 8).map (Nat.testBit b) ++ deltamaskBits rest := rfl

theorem deltamaskBits_getElem (dm : List Nat) :
    ∀ c, c < 8 * dm.length →
      (deltamaskBits dm)[c]? = some (Nat.testBit (dm.getD (c / 8) 0) (c % 8)) := by
  induction dm with
  | nil => intro c hc; simp at hc
  | cons b rest ih =>
    intro c hc
    rw [deltamaskBits_cons]
    by_cases h8 : c < 8
    · simp only [List.getElem?_append, List.length_map, List.length_range, if_pos h8,
        List.getElem?_map, Nat.div_eq_of_lt h8, Nat.mod_eq_of_lt h8]
      simp [List.getElem?_range, h8]
    · obtain ⟨d, rfl⟩ : ∃ d, c = 8 + d := ⟨c - 8, by omega⟩
      rw [List.getElem?_append, if_neg (by simp)]
      simp only [List.length_map, List.length_range]
      rw [show 8 + d - 8 = d from by omega]
      rw [ih d (by simp at hc; omega)]
      rw [show (8 + d) / 8 = d / 8 + 1 from by omega,
        show (8 + d) % 8 = d % 8 from by omega]
      rfl

/-- Element `k` of a byte slice, as an element of the underlying stream. -/
theorem sliceBytes_getD (bytes : List Nat) (i n k : Nat)
    (h : k < (sliceBytes bytes i n).length) :
    (sliceBytes bytes i n).getD k 0 = bytes.getD (i + k) 0 := by
  unfold sliceBytes at *
  have hk : k < n := lt_of_lt_of_le h (List.length_take_le n (bytes.drop i))
  rw [List.getD_eq_getElem?_getD, List.getD_eq_getElem?_getD,
    List.getElem?_take_of_lt hk, List.getElem?_drop]

/-- Mask bit of channel `c`, as the claim states it: bit `c % 8`
(least-significant first) of mask byte `c / 8`, the mask bytes starting at
stream position `i1`; schema 7 has an all-zero mask. -/
def maskBit (schema : Nat) (bytes : List Nat) (i1 c : Nat) : Bool :=
  if schema = 7 then false else Nat.testBit (bytes.getD (i1 + c / 8) 0) (c % 8)

/-- Number of mask bytes consumed per sample: none for schema 7,
`ceil(nChan / 8)` for schema 8/9. -/
def maskBytes (schema nChan : Nat) : Nat :=
  if schema = 7 then 0 else l_deltamask nChan

/-- Stream offset of channel `c`'s raw delta bytes within a sample that
starts at offset `i` (event byte at `i`, mask bytes after it, then the delta
bytes of channels `0..c-1`). -/
def deltaOff (schema : Nat) (bytes : List Nat) (i nChan c : Nat) : Nat :=
  i + 1 + maskBytes schema nChan
    + ((List.range c).map (fun j => chanWidth (maskBit schema bytes (i + 1) j))).sum

theorem nChan_le_8_l_deltamask (nChan : Nat) : nChan ≤ 8 * l_deltamask nChan := by
  unfold l_deltamask BITS_IN_BYTE
  omega

/-- The mask produced by `maskRead` advances the cursor by
`maskBytes` and its bit for channel `c` is `maskBit`. -/
theorem maskRead_spec (schema nChan : Nat) (bytes : List Nat) (i1 : Nat) (buf : Buf)
    (mask : List Bool) (i2 : Nat)
    (h : maskRead schema nChan bytes i1 buf = .ok (mask, i2)) :
    i2 = i1 + maskBytes schema nChan ∧
    ∀ c, c < nChan → (mask.take nChan)[c]? = some (maskBit schema bytes i1 c) := by
  unfold maskRead at h
  by_cases h7 : schema = 7
  · rw [if_pos h7] at h
    cases h
    constructor
    · simp [maskBytes, h7]
    · intro c hc
      rw [List.take_replicate, List.getElem?_replicate, if_pos (by omega)]
      simp [maskBit, h7]
  · rw [if_neg h7] at h
    split at h
    · rename_i hlen
      cases h
      constructor
      · simp [maskBytes, h7]
      · intro c hc
        have h8 : nChan ≤ 8 * l_deltamask nChan := nChan_le_8_l_deltamask nChan
        have hcl : c < 8 * (sliceBytes bytes i1 (l_deltamask nChan)).length := by
          rw [hlen]; omega
        rw [List.getElem?_take_of_lt hc, deltamaskBits_getElem _ _ hcl]
        have hdk : c / 8 < (sliceBytes bytes i1 (l_deltamask nChan)).length := by
          rw [hlen]; omega
        rw [sliceBytes_getD _ _ _ _ hdk]
        simp [maskBit, h7]
    · exact absurd h (by simp)

/-- Shared skeleton for C3/C10: the value `decodeSample` stores for a
non-sentinel (delta-coded) channel. -/
theorem decodeSample_delta_spec (schema nChan nSamples : Nat) (bytes : List Nat)
    (sam i : Nat) (buf : Buf) (r : Nat × Buf)
    (h : decodeSample schema nChan nSamples bytes sam i buf = .ok (some r))
    (c : Nat) (hc : c < nChan)
    (hval : sliceBytes bytes (deltaOff schema bytes i nChan c)
        (chanWidth (maskBit schema bytes (i + 1) c)) ≠ absDelta schema) :
    r.2 c sam = wrap32 (buf c (prevCol sam nSamples)
      + deltaVal (maskBit schema bytes (i + 1) c)
          (sliceBytes bytes (deltaOff schema bytes i nChan c)
            (chanWidth (maskBit schema bytes (i + 1) c)))) := by
  unfold decodeSample at h
  by_cases hev : sliceBytes bytes i 1 = []
  · rw [if_pos hev] at h
    exact absurd h (by simp)
  · rw [if_neg hev] at h
    cases hm : maskRead schema nChan bytes (i + 1) buf with
    | error e => rw [hm] at h; exact absurd h (by simp)
    | ok p =>
      obtain ⟨mask, i2⟩ := p
      rw [hm] at h
      simp only [] at h
      obtain ⟨hi2, hbits⟩ := maskRead_spec _ _ _ _ _ _ _ hm
      cases hcl : chanLoop bytes (absDelta schema) sam nSamples
          (mask.take nChan) 0 i2 buf [] with
      | error e => rw [hcl] at h; exact absurd h (by simp)
      | ok rc =>
        obtain ⟨i3, buf3, absL⟩ := rc
        rw [hcl] at h
        simp only [] at h
        cases hal : absLoop bytes sam absL i3 buf3 with
        | error e => rw [hal] at h; exact absurd h (by simp)
        | ok q =>
          obtain ⟨i4, buf4⟩ := q
          rw [hal] at h
          simp only [] at h
          have hr : (i4, buf4) = r := by simpa using h
          subst hr
          -- bridge `widthSum` over the parsed mask to the spec-side offsets
          have hws : ∀ c', c' ≤ nChan → widthSum (mask.take nChan) c'
              = ((List.range c').map
                  (fun j => chanWidth (maskBit schema bytes (i + 1) j))).sum := by
            intro c' hc'
            refine widthSum_congr _ _ _ ?_
            intro j hj
            rw [List.getD_eq_getElem?_getD, hbits j (by omega)]
            rfl
          have hoff : i2 + widthSum (mask.take nChan) c
              = deltaOff schema bytes i nChan c := by
            rw [hws c (Nat.le_of_lt hc), hi2]
            unfold deltaOff
            omega
          -- the channel is not flagged absolute
          have hnotin : c ∉ absL := by
            intro hin
            rcases chanLoop_mem bytes (absDelta schema) sam nSamples _ _ _ _ _ _
                hcl c hin with hfalse | ⟨k, m', hk, hck, hs⟩
            · simp at hfalse
            · have hkc : k = c := by omega
              subst hkc
              rw [hbits k (by omega)] at hk
              have hm' : maskBit schema bytes (i + 1) k = m' := by
                simpa using hk
              rw [← hm', hoff] at hs
              exact hval hs
          rw [absLoop_frame bytes sam absL i3 buf3 _ hal c sam hnotin]
          have := chanLoop_val bytes (absDelta schema) sam nSamples _ _ _ _ _ _
            hcl c (maskBit schema bytes (i + 1) c) (hbits c hc)
            (by rw [hoff]; exact hval)
          rw [Nat.zero_add] at this
          simp only [] at this
          rw [this, hoff]

/-! ### C1: invalid control byte -/

/-- C1: the claim says a 1-byte control flag other than `0x00`/`0x01` makes
the decoder fail with a hard `DesyncError` and decode never continues past
it.  The source code of `_read_erd` contradicts this (and its own docstring,
"If the eventbyte is something else, it throws an error"): the `except:`
branch merely constructs `Exception(...)` without `raise`, so the invalid
byte is silently accepted.  Concretely, a schema-7 segment with one channel
whose first sample carries the invalid control byte `0x02` decodes without
error, and decode continues past it to the second sample: the decoded
values are `5` (delta `+5` on sample 0) and `8` (delta `+3` on sample 1). -/
theorem c1_invalid_control_byte_silently_accepted :
    (read_erd_raw 7 1 2
        (List.replicate (initOffset 7) 0 ++ [0x02, 0x05, 0x00, 0x03])).toOption.map
      (fun b => (b 0 0, b 0 1)) = some (5, 8) := by
  rw [read_erd_raw_padded]
  decide

/-! ### Bounds for wrap-around -/

theorem wrap32_eq_of_bounds (x : Int) (h1 : -(2 ^ 31) ≤ x) (h2 : x < 2 ^ 31) :
    wrap32 x = x := by
  unfold wrap32
  omega

theorem int8valList_bounds (l : List Nat) (h : ∀ b ∈ l, b < 256) :
    -(2 ^ 15) ≤ int8valList l ∧ int8valList l < 2 ^ 15 := by
  rcases l with _ | ⟨b0, _ | ⟨b1, rest⟩⟩
  · decide
  · have := h b0 (by simp)
    simp only [int8valList, int8val]
    split <;> omega
  · norm_num [int8valList]

theorem int16valList_bounds (l : List Nat) (h : ∀ b ∈ l, b < 256) :
    -(2 ^ 15) ≤ int16valList l ∧ int16valList l < 2 ^ 15 := by
  rcases l with _ | ⟨b0, _ | ⟨b1, _ | ⟨b2, rest⟩⟩⟩
  · decide
  · norm_num [int16valList]
  · have h0 := h b0 (by simp)
    have h1 := h b1 (by simp)
    simp only [int16valList, int16val]
    split <;> omega
  · norm_num [int16valList]

theorem deltaVal_bounds (m : Bool) (l : List Nat) (h : ∀ b ∈ l, b < 256) :
    -(2 ^ 15) ≤ deltaVal m l ∧ deltaVal m l < 2 ^ 15 := by
  cases m
  · simp only [deltaVal, Bool.false_eq_true, if_false]
    exact int8valList_bounds l h
  · simp only [deltaVal, if_true]
    exact int16valList_bounds l h

theorem sliceBytes_mem (bytes : List Nat) (i n b : Nat)
    (h : b ∈ sliceBytes bytes i n) : b ∈ bytes :=
  List.mem_of_mem_drop (List.mem_of_mem_take h)

/-! ### C2: absolute values override the delta chain -/

/-- C2: for every channel flagged absolute-pending (its raw delta bytes at
its mask position equalled the sentinel, making it the `k`-th entry of the
flag list), the decoded value for the sample is the `k`-th out-of-band
4-byte signed integer — read at offset `r.1 + 4k`, where `r.1` is the cursor
after the delta phase — so absolute values are consumed in the same channel
order in which they were flagged; and the value is independent of the
previous contents of the output buffer (`buf` versus an arbitrary `buf\'`).
-/
theorem c2_absolute_decode (bytes ad : List Nat) (sam nSamples : Nat)
    (ms : List Bool) (i : Nat) (buf buf' : Buf)
    (r r' : Nat × Buf × List Nat) (q q' : Nat × Buf)
    (h1 : chanLoop bytes ad sam nSamples ms 0 i buf [] = .ok r)
    (h1' : chanLoop bytes ad sam nSamples ms 0 i buf' [] = .ok r')
    (h2 : absLoop bytes sam r.2.2 r.1 r.2.1 = .ok q)
    (h2' : absLoop bytes sam r'.2.2 r'.1 r'.2.1 = .ok q')
    (k c : Nat) (hk : r.2.2[k]? = some c) :
    q.2 c sam = int32valList (sliceBytes bytes (r.1 + 4 * k) 4)
    ∧ q'.2 c sam = q.2 c sam := by
  have hsort : r.2.2.Pairwise (· < ·) :=
    chanLoop_sorted bytes ad sam nSamples ms 0 i buf [] r h1 (by simp) (by simp)
  have hne : r.2.2.Pairwise (· ≠ ·) := hsort.imp (fun hab => Nat.ne_of_lt hab)
  have hv1 := absLoop_val bytes sam r.2.2 r.1 r.2.1 q h2 hne k c hk
  obtain ⟨r'', hr'', he1, he2⟩ :=
    chanLoop_indep bytes ad sam nSamples ms 0 i buf buf' [] r h1
  have hrr : r'' = r' := Except.ok.inj (hr''.symm.trans h1')
  subst hrr
  have hv2 := absLoop_val bytes sam r''.2.2 r''.1 r''.2.1 q' h2'
    (by rw [he2]; exact hne) k c (by rw [he2]; exact hk)
  rw [he1] at hv2
  exact ⟨hv1, by rw [hv2, ← hv1]⟩

/-- Witness for C2 at a concrete schema-8/9 stream: one channel with a
2-byte-width mask bit whose raw bytes are the sentinel `0xffff`, followed by
the out-of-band absolute value `7`; the decoded value is `7` for the fresh
zero buffer and for a buffer previously holding `42` everywhere. -/
theorem c2_absolute_decode_witness :
    (setBuf zeroBuf 0 0 7) 0 0
      = int32valList (sliceBytes [0xff, 0xff, 0x07, 0, 0, 0] (2 + 4 * 0) 4)
    ∧ (setBuf (fun _ _ => (42 : Int)) 0 0 7) 0 0 = (setBuf zeroBuf 0 0 7) 0 0 :=
  c2_absolute_decode [0xff, 0xff, 0x07, 0, 0, 0] (absDelta 8) 0 1 [true] 0
    zeroBuf (fun _ _ => 42) (2, zeroBuf, [0]) (2, (fun _ _ => 42), [0])
    (6, setBuf zeroBuf 0 0 7) (6, setBuf (fun _ _ => 42) 0 0 7)
    rfl rfl rfl rfl 0 0 rfl

/-! ### C3: delta decoding (corrected for int32 wrap-around) -/

/-- C3 (amended): for every sample after the first (`1 ≤ sam`) and every
channel whose raw delta bytes are not the sentinel, the decoded raw value
equals the previous sample's decoded value for that channel plus the signed
1- or 2-byte delta, **reduced to a signed 32-bit integer** (`wrap32`) — the
output array is `numpy.int32`, so the sum wraps around on overflow.  The
delta width is `chanWidth` of the channel's mask bit; `maskBit` is bit
`c % 8` of mask byte `c / 8` (bits least-significant first, mask bytes
starting right after the event byte) for schema ≥ 8 and constantly `false`
for schema 7; `maskBytes` (inside `deltaOff`) shows the mask occupies
`ceil(nChan/8)` bytes for schema ≥ 8 and no bytes for schema 7. -/
theorem c3_delta_decode (schema nChan nSamples : Nat) (bytes : List Nat)
    (sam i : Nat) (buf : Buf) (r : Nat × Buf)
    (hsam : 1 ≤ sam)
    (h : decodeSample schema nChan nSamples bytes sam i buf = .ok (some r))
    (c : Nat) (hc : c < nChan)
    (hval : sliceBytes bytes (deltaOff schema bytes i nChan c)
        (chanWidth (maskBit schema bytes (i + 1) c)) ≠ absDelta schema) :
    r.2 c sam = wrap32 (buf c (sam - 1)
      + deltaVal (maskBit schema bytes (i + 1) c)
          (sliceBytes bytes (deltaOff schema bytes i nChan c)
            (chanWidth (maskBit schema bytes (i + 1) c)))) := by
  have hspec := decodeSample_delta_spec schema nChan nSamples bytes sam i buf r h c hc hval
  rwa [show prevCol sam nSamples = sam - 1 from by
    unfold prevCol
    rw [if_neg (by omega)]] at hspec

/-- Witness for C3: a schema-8 stream with one channel, mask byte `0x01`
(2-byte delta), delta bytes `[5, 0]`: the second sample decodes to
`previous + 5`. -/
theorem c3_delta_decode_witness :
    (setBuf zeroBuf 0 1 5) 0 1 = wrap32 (zeroBuf 0 (1 - 1)
      + deltaVal (maskBit 8 [0, 1, 5, 0] (0 + 1) 0)
          (sliceBytes [0, 1, 5, 0] (deltaOff 8 [0, 1, 5, 0] 0 1 0)
            (chanWidth (maskBit 8 [0, 1, 5, 0] (0 + 1) 0)))) :=
  c3_delta_decode 8 1 2 [0, 1, 5, 0] 1 0 zeroBuf (4, setBuf zeroBuf 0 1 5)
    (by decide) rfl 0 (by decide) (by decide)

/-- Counterexample to C3 as stated: with `int32` storage the sum
`previous + delta` wraps around.  A schema-7 stream whose first sample is
the absolute value `2147483647` (`int32` max) and whose second sample is the
1-byte delta `+1` decodes the second sample to `-2147483648`, which differs
from `previous + delta = 2147483647 + 1`. -/
theorem c3_counterexample :
    (read_erd_raw 7 1 2 (List.replicate (initOffset 7) 0
        ++ [0x00, 0x80, 0xff, 0xff, 0xff, 0x7f, 0x00, 0x01])).toOption.map
      (fun b => (b 0 0, b 0 1)) = some (2147483647, -2147483648)
    ∧ ((-2147483648 : Int) ≠ 2147483647 + int8val 1) := by
  refine ⟨?_, by decide⟩
  rw [read_erd_raw_padded]
  decide

/-! ### C10: first sample of a segment -/

/-- C10: when the first sample of a segment (`sam = 0`) is decoded into the
freshly zero-initialised buffer, the previous-value lookup at Python index
`-1` wraps around to the last column (`prevCol 0 nSamples = nSamples - 1`),
which is still zero, so every channel whose raw bytes are not the sentinel
decodes to `delta + 0 = delta` — no error and no rejection. -/
theorem c10_first_sample_delta (schema nChan nSamples : Nat) (bytes : List Nat)
    (i : Nat) (r : Nat × Buf)
    (hbytes : ∀ b ∈ bytes, b < 256)
    (h : decodeSample schema nChan nSamples bytes 0 i zeroBuf = .ok (some r))
    (c : Nat) (hc : c < nChan)
    (hval : sliceBytes bytes (deltaOff schema bytes i nChan c)
        (chanWidth (maskBit schema bytes (i + 1) c)) ≠ absDelta schema) :
    prevCol 0 nSamples = nSamples - 1 ∧
    r.2 c 0 = deltaVal (maskBit schema bytes (i + 1) c)
        (sliceBytes bytes (deltaOff schema bytes i nChan c)
          (chanWidth (maskBit schema bytes (i + 1) c))) := by
  refine ⟨rfl, ?_⟩
  have hspec := decodeSample_delta_spec schema nChan nSamples bytes 0 i zeroBuf r h c hc hval
  rw [hspec]
  have hmem : ∀ b ∈ sliceBytes bytes (deltaOff schema bytes i nChan c)
      (chanWidth (maskBit schema bytes (i + 1) c)), b < 256 :=
    fun b hb => hbytes b (sliceBytes_mem _ _ _ _ hb)
  have hbnd := deltaVal_bounds (maskBit schema bytes (i + 1) c) _ hmem
  have hz : zeroBuf c (prevCol 0 nSamples) = 0 := rfl
  rw [hz, zero_add]
  exact wrap32_eq_of_bounds _ (by omega) (by omega)

/-- Witness for C10: a schema-7 single-channel single-sample stream whose
first sample arrives as the 1-byte delta `+5` decodes to `5`. -/
theorem c10_first_sample_delta_witness :
    prevCol 0 1 = 1 - 1 ∧
    (setBuf zeroBuf 0 0 5) 0 0 = deltaVal (maskBit 7 [0, 5] (0 + 1) 0)
        (sliceBytes [0, 5] (deltaOff 7 [0, 5] 0 1 0)
          (chanWidth (maskBit 7 [0, 5] (0 + 1) 0))) :=
  c10_first_sample_delta 7 1 1 [0, 5] 0 (2, setBuf zeroBuf 0 0 5)
    (by decide) rfl 0 (by decide) (by decide)

/-! ### C7: truncation at end of stream -/

/-- The error message of a decode result, when it failed. -/
def errMsg? {α : Type} : Except DecErr α → Option String
  | .error (e, _) => some e
  | .ok _ => none

/-- C7 (amended): when the stream is exhausted at a **sample boundary** — the
cursor is at or past the end of the byte stream exactly where the next event
byte would be read — the sample loop terminates normally, returning the
output decoded so far (`if eventbite == b'': break`). -/
theorem c7_truncation_at_boundary (schema nChan nSamples : Nat) (bytes : List Nat)
    (sams : List Nat) (i : Nat) (buf : Buf) (h : bytes.length ≤ i) :
    sampleLoop schema nChan nSamples bytes sams i buf = .ok buf := by
  cases sams with
  | nil => rfl
  | cons sam rest =>
    have hev : sliceBytes bytes i 1 = [] := by
      unfold sliceBytes
      rw [List.drop_eq_nil_of_le h]
      rfl
    simp only [sampleLoop, decodeSample, hev, reduceIte]

/-- Witness for C7 (amended): for a schema-7 stream holding exactly one full
sample, the loop over the remaining sample indices terminates normally with
the partial buffer unchanged once the cursor reaches the end of the stream.
-/
theorem c7_truncation_at_boundary_witness :
    ([0, 5] : List Nat).length ≤ 2 ∧
    sampleLoop 7 1 2 [0, 5] [1] 2 (setBuf zeroBuf 0 0 5)
      = .ok (setBuf zeroBuf 0 0 5) :=
  ⟨by decide, c7_truncation_at_boundary 7 1 2 [0, 5] [1] 2 (setBuf zeroBuf 0 0 5)
    (by decide)⟩

/-- Counterexample to C7 as stated: a schema-7 one-channel stream truncated
**mid-sample** (the event byte of the first sample is present, its delta
byte is missing) does not return a partial matrix: `unpack('b', b'')`
raises `struct.error` and the decode fails. -/
theorem c7_counterexample :
    errMsg? (read_erd_raw 7 1 2 (List.replicate (initOffset 7) 0 ++ [0x00]))
      = some "struct.error" := by
  rw [read_erd_raw_padded]
  decide

/-! ### C4: calibration table (`_calculate_conversion`) -/

/-- Gain `8711. / (221 - 0.5)`: gain of the standard EEG channel ranges. -/
def gEEG : ℚ := 8711 / (221 - 1 / 2)

/-- Gain `(5000000. / (210 - 0.5)) / 26`: gain of headbox-4 channels 24-27. -/
def gAC4 : ℚ := 5000000 / (210 - 1 / 2) / 26

/-- Gain `1 / 26`: gain of the DC channel ranges (headbox 21: channels 128-129,
headbox 22: channels 40-41). -/
def gDC : ℚ := 1 / 26

/-- Gain `(10800000. / 65536.) / 26`: gain of headbox-22 channels 32-39 and 42. -/
def gAC22 : ℚ := 10800000 / 65536 / 26

/-- Scale `2 ** discardbits` (float exponentiation in the source; `discardbits` is
a signed header field). -/
def pow2 (d : Int) : ℚ := (2 : ℚ) ^ d

/-- Scale `* 1e-6`: the device reports microvolts, the output is volts. -/
def usVolt (x : ℚ) : ℚ := x * (1 / 1000000)

/-- Source `_calculate_conversion`: per-channel conversion factors.  Each supported
headbox type concatenates contiguous channel ranges with their gains, each
already scaled by `2 ** discardbits`; the vector is truncated to the actual
channel count (`factor[:n_chan]`) and scaled by `1e-6`.  An unsupported
headbox type raises `NotImplementedError`. -/
def _calculate_conversion (headboxType discardbits : Int) (nChan : Nat) :
    Except String (List ℚ) :=
  if headboxType = 1 ∨ headboxType = 3 then
    .ok (((List.replicate nChan (gEEG * pow2 discardbits)).take nChan).map usVolt)
  else if headboxType = 4 then
    .ok (((List.replicate 24 (gEEG * pow2 discardbits)
        ++ List.replicate 4 (gAC4 * pow2 discardbits)).take nChan).map usVolt)
  else if headboxType = 21 then
    .ok (((List.replicate 128 (gEEG * pow2 discardbits)
        ++ List.replicate 2 (gDC * pow2 discardbits)
        ++ List.replicate 126 (gEEG * pow2 discardbits)).take nChan).map usVolt)
  else if headboxType = 22 then
    .ok (((List.replicate 32 (gEEG * pow2 discardbits)
        ++ List.replicate 8 (gAC22 * pow2 discardbits)
        ++ List.replicate 2 (gDC * pow2 discardbits)
        ++ List.replicate 1 (gAC22 * pow2 discardbits)).take nChan).map usVolt)
  else
    .error ("NotImplementedError: Implement conversion factor for headbox "
      ++ toString headboxType)

/-- The documented gain constant of the channel range containing channel `c`,
for each supported headbox layout. -/
def rangeGain (headboxType : Int) (c : Nat) : ℚ :=
  if headboxType = 1 ∨ headboxType = 3 then gEEG
  else if headboxType = 4 then (if c < 24 then gEEG else gAC4)
  else if headboxType = 21 then
    (if c < 128 then gEEG else if c < 130 then gDC else gEEG)
  else if headboxType = 22 then
    (if c < 32 then gEEG else if c < 40 then gAC22 else if c < 42 then gDC
     else gAC22)
  else 0

/-- The headbox types `_calculate_conversion` supports. -/
def supportedHeadbox (headboxType : Int) : Prop :=
  headboxType = 1 ∨ headboxType = 3 ∨ headboxType = 4 ∨ headboxType = 21
    ∨ headboxType = 22

/-- Hardware-maximum channel count of each layout (a recording may use
fewer). -/
def layoutMax (headboxType : Int) (nChan : Nat) : Nat :=
  if headboxType = 1 ∨ headboxType = 3 then nChan
  else if headboxType = 4 then 28
  else if headboxType = 21 then 256
  else 43

theorem getD_append_q (l1 l2 : List ℚ) (c : Nat) :
    (l1 ++ l2).getD c 0
      = if c < l1.length then l1.getD c 0 else l2.getD (c - l1.length) 0 := by
  rw [List.getD_eq_getElem?_getD, List.getElem?_append]
  split <;> rw [List.getD_eq_getElem?_getD]

theorem getD_replicate_q (a : ℚ) (n c : Nat) (hc : c < n) :
    (List.replicate n a).getD c 0 = a := by
  rw [List.getD_eq_getElem?_getD, List.getElem?_replicate, if_pos hc]
  rfl

theorem calib_getD (l : List ℚ) (n c : Nat) (hc : c < n) (hn : n ≤ l.length) :
    ((l.take n).map usVolt).getD c 0 = usVolt (l.getD c 0) := by
  rw [List.getD_eq_getElem?_getD, List.getElem?_map, List.getElem?_take_of_lt hc,
    List.getElem?_eq_getElem (show c < l.length by omega)]
  rw [List.getD_eq_getElem?_getD, List.getElem?_eq_getElem (show c < l.length by omega)]
  rfl

theorem calib_length (l : List ℚ) (n : Nat) (hn : n ≤ l.length) :
    ((l.take n).map usVolt).length = n := by
  simp [List.length_take]
  omega

/-- C4: for every supported headbox type and actual channel count within the
layout's hardware maximum, the calibration vector has exactly `nChan`
entries, and entry `c` is the documented gain constant of `c`'s channel
range multiplied by `2 ^ discardbits` and by `1e-6`; an unsupported headbox
type fails with `NotImplementedError` (UnsupportedHardware). -/
theorem c4_calibration (headboxType discardbits : Int) (nChan : Nat) :
    (supportedHeadbox headboxType → nChan ≤ layoutMax headboxType nChan →
      ∃ v, _calculate_conversion headboxType discardbits nChan = .ok v ∧
        v.length = nChan ∧
        ∀ c, c < nChan →
          v.getD c 0 = rangeGain headboxType c * pow2 discardbits * (1 / 1000000))
    ∧ (¬ supportedHeadbox headboxType →
        _calculate_conversion headboxType discardbits nChan
          = .error ("NotImplementedError: Implement conversion factor for headbox "
              ++ toString headboxType)) := by
  constructor
  · intro hsup hmax
    rcases hsup with h | h | h | h | h <;> subst h
    · -- headbox 1
      have hv : _calculate_conversion 1 discardbits nChan
          = .ok (((List.replicate nChan (gEEG * pow2 discardbits)).take nChan).map
              usVolt) := by
        unfold _calculate_conversion
        rw [if_pos (by norm_num)]
      refine ⟨_, hv, calib_length _ _ (by simp only [List.length_replicate]; omega), ?_⟩
      intro c hc
      rw [calib_getD _ _ _ hc (by simp only [List.length_replicate]; omega),
        getD_replicate_q _ _ _ hc]
      unfold usVolt rangeGain
      rw [if_pos (by norm_num)]
    · -- headbox 3
      have hv : _calculate_conversion 3 discardbits nChan
          = .ok (((List.replicate nChan (gEEG * pow2 discardbits)).take nChan).map
              usVolt) := by
        unfold _calculate_conversion
        rw [if_pos (by norm_num)]
      refine ⟨_, hv, calib_length _ _ (by simp only [List.length_replicate]; omega), ?_⟩
      intro c hc
      rw [calib_getD _ _ _ hc (by simp only [List.length_replicate]; omega),
        getD_replicate_q _ _ _ hc]
      unfold usVolt rangeGain
      rw [if_pos (by norm_num)]
    · -- headbox 4
      have hmax' : nChan ≤ 28 := by simpa [layoutMax] using hmax
      have hv : _calculate_conversion 4 discardbits nChan
          = .ok (((List.replicate 24 (gEEG * pow2 discardbits)
              ++ List.replicate 4 (gAC4 * pow2 discardbits)).take nChan).map
              usVolt) := by
        unfold _calculate_conversion
        rw [if_neg (by norm_num), if_pos (by norm_num)]
      have hlen : nChan ≤ (List.replicate 24 (gEEG * pow2 discardbits)
          ++ List.replicate 4 (gAC4 * pow2 discardbits)).length := by
        simp only [List.length_append, List.length_replicate]
        omega
      refine ⟨_, hv, calib_length _ _ hlen, ?_⟩
      intro c hc
      rw [calib_getD _ _ _ hc hlen, getD_append_q]
      simp only [List.length_replicate]
      unfold usVolt rangeGain
      rw [if_neg (show ¬((4 : Int) = 1 ∨ (4 : Int) = 3) from by norm_num),
        if_pos (show (4 : Int) = 4 from by norm_num)]
      by_cases h24 : c < 24
      · rw [if_pos h24, if_pos h24, getD_replicate_q _ _ _ h24]
      · rw [if_neg h24, if_neg h24,
          getD_replicate_q _ _ _ (show c - 24 < 4 from by omega)]
    · -- headbox 21
      have hmax' : nChan ≤ 256 := by simpa [layoutMax] using hmax
      have hv : _calculate_conversion 21 discardbits nChan
          = .ok (((List.replicate 128 (gEEG * pow2 discardbits)
              ++ List.replicate 2 (gDC * pow2 discardbits)
              ++ List.replicate 126 (gEEG * pow2 discardbits)).take nChan).map
              usVolt) := by
        unfold _calculate_conversion
        rw [if_neg (by norm_num), if_neg (by norm_num), if_pos (by norm_num)]
      have hlen : nChan ≤ (List.replicate 128 (gEEG * pow2 discardbits)
          ++ List.replicate 2 (gDC * pow2 discardbits)
          ++ List.replicate 126 (gEEG * pow2 discardbits)).length := by
        simp only [List.length_append, List.length_replicate]
        omega
      refine ⟨_, hv, calib_length _ _ hlen, ?_⟩
      intro c hc
      rw [calib_getD _ _ _ hc hlen, getD_append_q]
      simp only [List.length_append, List.length_replicate, Nat.reduceAdd]
      unfold usVolt rangeGain
      rw [if_neg (show ¬((21 : Int) = 1 ∨ (21 : Int) = 3) from by norm_num),
        if_neg (show ¬((21 : Int) = 4) from by norm_num),
        if_pos (show (21 : Int) = 21 from by norm_num)]
      by_cases h130 : c < 130
      · rw [if_pos h130, getD_append_q]
        simp only [List.length_replicate]
        by_cases h128 : c < 128
        · rw [if_pos h128, if_pos h128, getD_replicate_q _ _ _ h128]
        · rw [if_neg h128, if_neg h128, if_pos h130,
            getD_replicate_q _ _ _ (show c - 128 < 2 from by omega)]
      · rw [if_neg h130, if_neg (show ¬(c < 128) from by omega), if_neg h130,
          getD_replicate_q _ _ _ (show c - 130 < 126 from by omega)]
    · -- headbox 22
      have hmax' : nChan ≤ 43 := by simpa [layoutMax] using hmax
      have hv : _calculate_conversion 22 discardbits nChan
          = .ok (((List.replicate 32 (gEEG * pow2 discardbits)
              ++ List.replicate 8 (gAC22 * pow2 discardbits)
              ++ List.replicate 2 (gDC * pow2 discardbits)
              ++ List.replicate 1 (gAC22 * pow2 discardbits)).take nChan).map
              usVolt) := by
        unfold _calculate_conversion
        rw [if_neg (by norm_num), if_neg (by norm_num), if_neg (by norm_num),
          if_pos (by norm_num)]
      have hlen : nChan ≤ (List.replicate 32 (gEEG * pow2 discardbits)
          ++ List.replicate 8 (gAC22 * pow2 discardbits)
          ++ List.replicate 2 (gDC * pow2 discardbits)
          ++ List.replicate 1 (gAC22 * pow2 discardbits)).length := by
        simp only [List.length_append, List.length_replicate]
        omega
      refine ⟨_, hv, calib_length _ _ hlen, ?_⟩
      intro c hc
      rw [calib_getD _ _ _ hc hlen, getD_append_q]
      simp only [List.length_append, List.length_replicate, Nat.reduceAdd]
      unfold usVolt rangeGain
      rw [if_neg (show ¬((22 : Int) = 1 ∨ (22 : Int) = 3) from by norm_num),
        if_neg (show ¬((22 : Int) = 4) from by norm_num),
        if_neg (show ¬((22 : Int) = 21) from by norm_num),
        if_pos (show (22 : Int) = 22 from by norm_num)]
      by_cases h42 : c < 42
      · rw [if_pos h42, getD_append_q]
        simp only [List.length_append, List.length_replicate, Nat.reduceAdd]
        by_cases h40 : c < 40
        · rw [if_pos h40, getD_append_q]
          simp only [List.length_replicate]
          by_cases h32 : c < 32
          · rw [if_pos h32, if_pos h32, getD_replicate_q _ _ _ h32]
          · rw [if_neg h32, if_neg h32, if_pos h40,
              getD_replicate_q _ _ _ (show c - 32 < 8 from by omega)]
        · rw [if_neg h40, if_neg (show ¬(c < 32) from by omega), if_neg h40,
            if_pos h42, getD_replicate_q _ _ _ (show c - 40 < 2 from by omega)]
      · rw [if_neg h42, if_neg (show ¬(c < 32) from by omega),
          if_neg (show ¬(c < 40) from by omega), if_neg h42,
          getD_replicate_q _ _ _ (show c - 42 < 1 from by omega)]
  · intro hns
    unfold _calculate_conversion
    rw [if_neg (fun h => hns (by unfold supportedHeadbox; tauto)),
      if_neg (fun h => hns (by unfold supportedHeadbox; tauto)),
      if_neg (fun h => hns (by unfold supportedHeadbox; tauto)),
      if_neg (fun h => hns (by unfold supportedHeadbox; tauto))]

/-- Witness for C4: headbox type 4 with `discardbits = 0` and 26 channels
yields a 26-entry vector whose entries 0 and 25 carry the documented gains;
headbox type 5 is rejected. -/
theorem c4_calibration_witness :
    (∃ v, _calculate_conversion 4 0 26 = .ok v ∧ v.length = 26 ∧
      ∀ c, c < 26 → v.getD c 0 = rangeGain 4 c * pow2 0 * (1 / 1000000))
    ∧ _calculate_conversion 5 0 26
      = .error ("NotImplementedError: Implement conversion factor for headbox "
          ++ toString (5 : Int)) :=
  ⟨(c4_calibration 4 0 26).1 (by unfold supportedHeadbox; norm_num)
      (by unfold layoutMax; norm_num),
   (c4_calibration 5 0 26).2 (by unfold supportedHeadbox; norm_num)⟩

/-! ### C5: segment resolution in `Ktlx.return_dat` -/

/-- Source `concatenate((array([0]), cumsum(all_samples)))`: cumulative sample
counts with a leading zero; entry `k` is the number of samples recorded
before segment `k`, entry `spans.length` the total sample count. -/
def n_sam_rec (spans : List Nat) : List Nat :=
  (List.range (spans.length + 1)).map (fun k => (spans.take k).sum)

/-- Source `where(n_sam_rec <= x)[0][-1]`: the last index whose cumulative count is
`≤ x`; `none` when the `where` array is empty (the `[-1]` indexing then
raises `IndexError`). -/
def whereLastLE (cum : List Nat) (x : Int) : Option Nat :=
  ((List.range cum.length).filter (fun k => decide ((cum.getD k 0 : Int) ≤ x))).getLast?

/-- Source `where(n_sam_rec < x)[0][-1]`. -/
def whereLastLT (cum : List Nat) (x : Int) : Option Nat :=
  ((List.range cum.length).filter (fun k => decide ((cum.getD k 0 : Int) < x))).getLast?

/-- Segment resolution of `Ktlx.return_dat`: `begrec`/`endrec` via
`where(...)[-1]`, the `zeros((len(chan), endsam - begsam))` allocation
(`ValueError` on a negative dimension), and the bound check of the
`all_erd[rec]` list accesses performed by the concatenation loop for
`rec in range(begrec, endrec + 1)` (reading the segment files themselves is
beyond this model). -/
def return_dat_resolve (spans : List Nat) (begsam endsam : Int) :
    Except String (Nat × Nat) :=
  match whereLastLE (n_sam_rec spans) begsam with
  | none => .error "IndexError"
  | some begrec =>
    match whereLastLT (n_sam_rec spans) endsam with
    | none => .error "IndexError"
    | some endrec =>
      if endsam - begsam < 0 then .error "ValueError"
      else if begrec ≤ endrec ∧ spans.length ≤ endrec then .error "IndexError"
      else .ok (begrec, endrec)

theorem sorted_le_getLast? :
    ∀ (l : List Nat), l.Pairwise (· < ·) → ∀ x ∈ l, ∀ y, l.getLast? = some y → x ≤ y := by
  intro l
  induction l with
  | nil =>
    intro _ x hx
    simp at hx
  | cons a l ih =>
    intro hp x hx y hy
    cases l with
    | nil =>
      simp at hx hy
      omega
    | cons b l' =>
      rw [List.getLast?_cons_cons] at hy
      rcases List.mem_cons.mp hx with rfl | hx'
      · have hmem : y ∈ b :: l' := List.mem_of_mem_getLast? hy
        have := (List.pairwise_cons.mp hp).1 y hmem
        omega
      · exact ih (List.pairwise_cons.mp hp).2 x hx' y hy

theorem whereLast_filter_spec (m : Nat) (p : Nat → Bool) (j : Nat)
    (h : ((List.range m).filter p).getLast? = some j) :
    j < m ∧ p j = true ∧ ∀ k, k < m → p k = true → k ≤ j := by
  have hmem : j ∈ (List.range m).filter p := List.mem_of_mem_getLast? h
  have hj := List.mem_filter.mp hmem
  have hsorted : ((List.range m).filter p).Pairwise (· < ·) :=
    List.Pairwise.sublist (List.filter_sublist _) (List.pairwise_lt_range m)
  refine ⟨List.mem_range.mp hj.1, hj.2, ?_⟩
  intro k hk hpk
  exact sorted_le_getLast? _ hsorted k
    (List.mem_filter.mpr ⟨List.mem_range.mpr hk, hpk⟩) j h

theorem whereLast_filter_exists (m : Nat) (p : Nat → Bool) (k : Nat)
    (hk : k < m) (hp : p k = true) :
    ∃ j, ((List.range m).filter p).getLast? = some j := by
  refine Option.isSome_iff_exists.mp (List.getLast?_isSome.mpr ?_)
  intro hnil
  have hmem : k ∈ (List.range m).filter p :=
    List.mem_filter.mpr ⟨List.mem_range.mpr hk, hp⟩
  rw [hnil] at hmem
  simp at hmem

theorem n_sam_rec_length (spans : List Nat) :
    (n_sam_rec spans).length = spans.length + 1 := by
  simp [n_sam_rec]

theorem n_sam_rec_getD (spans : List Nat) (k : Nat) (hk : k < spans.length + 1) :
    (n_sam_rec spans).getD k 0 = (spans.take k).sum := by
  unfold n_sam_rec
  rw [List.getD_eq_getElem?_getD, List.getElem?_map]
  simp [List.getElem?_range, hk]

theorem sum_take_mono (spans : List Nat) (j k : Nat) (hjk : j ≤ k) :
    (spans.take j).sum ≤ (spans.take k).sum := by
  conv_rhs => rw [← List.take_append_drop j (spans.take k)]
  rw [List.sum_append, List.take_take, min_eq_left hjk]
  omega

/-- C5: under the inclusive-start/exclusive-end convention
(`0 ≤ begsam < endsam`), segment resolution succeeds exactly when the
request ends within the recording: on success, `begrec` is the rightmost
index whose cumulative sample count is `≤ begsam` and `endrec` the rightmost
index whose cumulative count is `< endsam` (and it is a valid segment
index); when the request runs past the last recorded sample — in particular
for an empty index — the resolution fails (`IndexError`, the OutOfRange of
the spec). -/
theorem c5_segment_resolution (spans : List Nat) (begsam endsam : Int)
    (h0 : 0 ≤ begsam) (hlt : begsam < endsam) :
    (endsam ≤ (spans.sum : Int) →
      ∃ b e, return_dat_resolve spans begsam endsam = .ok (b, e) ∧
        b < spans.length + 1 ∧ e < spans.length ∧
        ((n_sam_rec spans).getD b 0 : Int) ≤ begsam ∧
        (∀ k, k < spans.length + 1 →
          ((n_sam_rec spans).getD k 0 : Int) ≤ begsam → k ≤ b) ∧
        ((n_sam_rec spans).getD e 0 : Int) < endsam ∧
        (∀ k, k < spans.length + 1 →
          ((n_sam_rec spans).getD k 0 : Int) < endsam → k ≤ e))
    ∧ ((spans.sum : Int) < endsam →
        return_dat_resolve spans begsam endsam = .error "IndexError") := by
  have hlen := n_sam_rec_length spans
  have hzero : ((n_sam_rec spans).getD 0 0 : Int) = 0 := by
    rw [n_sam_rec_getD spans 0 (by omega)]
    rfl
  have htot : ((n_sam_rec spans).getD spans.length 0 : Int) = (spans.sum : Int) := by
    rw [n_sam_rec_getD spans spans.length (by omega), List.take_length]
  -- begrec always exists: index 0 qualifies
  obtain ⟨b, hb⟩ := whereLast_filter_exists (n_sam_rec spans).length
    (fun k => decide (((n_sam_rec spans).getD k 0 : Int) ≤ begsam)) 0
    (by omega) (by rw [decide_eq_true_iff, hzero]; exact h0)
  obtain ⟨hblt, hbq, hbmax⟩ := whereLast_filter_spec _ _ _ hb
  rw [decide_eq_true_iff] at hbq
  -- endrec always exists: index 0 qualifies
  obtain ⟨e, he⟩ := whereLast_filter_exists (n_sam_rec spans).length
    (fun k => decide (((n_sam_rec spans).getD k 0 : Int) < endsam)) 0
    (by omega) (by rw [decide_eq_true_iff, hzero]; omega)
  obtain ⟨helt, heq, hemax⟩ := whereLast_filter_spec _ _ _ he
  rw [decide_eq_true_iff] at heq
  have hbe : b ≤ e := hemax b (by omega) (by rw [decide_eq_true_iff]; omega)
  constructor
  · intro hin
    have hen : e < spans.length := by
      rcases Nat.lt_or_ge e spans.length with h | h
      · exact h
      · have : e = spans.length := by omega
        rw [this, htot] at heq
        omega
    refine ⟨b, e, ?_, by omega, hen, hbq, ?_, heq, ?_⟩
    · unfold return_dat_resolve whereLastLE whereLastLT
      rw [hb, he]
      simp only []
      rw [if_neg (by omega), if_neg (by rintro ⟨_, hc⟩; omega)]
    · intro k hk hq
      exact hbmax k (by omega) (by rw [decide_eq_true_iff]; exact hq)
    · intro k hk hq
      exact hemax k (by omega) (by rw [decide_eq_true_iff]; exact hq)
  · intro hpast
    have hne : spans.length ≤ e :=
      hemax spans.length (by omega) (by rw [decide_eq_true_iff, htot]; exact hpast)
    unfold return_dat_resolve whereLastLE whereLastLT
    rw [hb, he]
    simp only []
    rw [if_neg (by omega), if_pos ⟨hbe, hne⟩]

/-- Witness for C5 on the index `[2, 3]` (cumulative counts `[0, 2, 5]`):
the request `[2, 4)` resolves to segments `(1, 1)`, and the request `[2, 6)`
— which runs one sample past the recording — fails. -/
theorem c5_segment_resolution_witness :
    (∃ b e, return_dat_resolve [2, 3] 2 4 = .ok (b, e) ∧
      b < [2, 3].length + 1 ∧ e < [2, 3].length ∧
      ((n_sam_rec [2, 3]).getD b 0 : Int) ≤ 2 ∧
      (∀ k, k < [2, 3].length + 1 →
        ((n_sam_rec [2, 3]).getD k 0 : Int) ≤ 2 → k ≤ b) ∧
      ((n_sam_rec [2, 3]).getD e 0 : Int) < 4 ∧
      (∀ k, k < [2, 3].length + 1 →
        ((n_sam_rec [2, 3]).getD k 0 : Int) < 4 → k ≤ e))
    ∧ return_dat_resolve [2, 3] 2 6 = .error "IndexError" :=
  ⟨(c5_segment_resolution [2, 3] 2 4 (by decide) (by decide)).1 (by decide),
   (c5_segment_resolution [2, 3] 2 6 (by decide) (by decide)).2 (by decide)⟩

/-! ### C6: header parsing (`_read_hdr_file`) -/

/-- Python `f.read(n)` followed by `unpack`: exactly `n` bytes at offset `i`;
`struct.error` when the file is too short. -/
def readExact (bytes : List Nat) (i n : Nat) : Except String (List Nat) :=
  if (sliceBytes bytes i n).length = n then .ok (sliceBytes bytes i n)
  else .error "struct.error"

/-- Python `unpack('H', ..)`: little-endian unsigned 16-bit. -/
def u16 : List Nat → Nat
  | [b0, b1] => b0 + 256 * b1
  | _ => 0

/-- Python `unpack('i' * n, ..)`: chunk into 4-byte signed integers. -/
def i32List : List Nat → List Int
  | b0 :: b1 :: b2 :: b3 :: rest => int32val b0 b1 b2 b3 :: i32List rest
  | _ => []

/-- Python `unpack('h' * n, ..)`: chunk into 2-byte signed integers. -/
def i16List : List Nat → List Int
  | b0 :: b1 :: rest => int16val b0 b1 :: i16List rest
  | _ => []

/-- Source `_make_str`: bytes up to the first NUL terminator (per-byte UTF-8
decoding is modelled as the identity on bytes). -/
def _make_str (l : List Nat) : List Nat :=
  l.takeWhile (fun b => decide (b ≠ 0))

/-- The fields `_read_hdr_file` collects.  For `file_schema < 7` the
schema-specific fields are absent from the source's dict; they are modelled
by zero/empty defaults. -/
structure Hdr where
  file_guid : List Nat
  file_schema : Nat
  base_schema : Nat
  creation_time : Int
  study_id : Int
  pat_last_name : List Nat
  pat_first_name : List Nat
  pat_middle_name : List Nat
  patient_id : List Nat
  sample_freq_raw : List Nat
  num_channels : Int
  deltabits : Int
  phys_chan : List Int
  headbox_type : List Int
  headbox_sn : List Int
  headbox_sw_version : List Nat
  dsp_hw_version : List Nat
  dsp_sw_version : List Nat
  discardbits : Int
  shorted : List Int
  frequency_factor : List Int

/-- Source `_read_hdr_file`: fixed-layout header parse.  The 16-byte GUID; the
2-byte schema version, asserted to lie in `{1, 7, 8, 9}` with a hard
`NotImplementedError` otherwise; the 2-byte base-schema version, asserted to
equal `1` with a hard `NotImplementedError` otherwise; the fixed 352-byte
patient region; for schema ≥ 7 the sample rate (kept as its raw 8 bytes —
no claim depends on the IEEE-754 value), channel count, delta bits, channel
map, and the headbox/discardbits block at absolute offset 4464; for
schema ≥ 8 the two 1024-entry `shorted`/`frequency_factor` tables. -/
def _read_hdr_file (bytes : List Nat) : Except String Hdr := do
  let file_guid ← readExact bytes 0 16
  let schemaB ← readExact bytes 16 2
  let file_schema := u16 schemaB
  if ¬(file_schema = 1 ∨ file_schema = 7 ∨ file_schema = 8 ∨ file_schema = 9) then
    throw ("NotImplementedError: Reading header not implemented for file_schema "
      ++ toString file_schema)
  let baseB ← readExact bytes 18 2
  let base_schema := u16 baseB
  if base_schema ≠ 1 then
    throw ("NotImplementedError: Reading header not implemented for base_schema "
      ++ toString base_schema)
  let ctB ← readExact bytes 20 4
  let _pidB ← readExact bytes 24 4
  let sidB ← readExact bytes 28 4
  let lastB ← readExact bytes 32 80
  let firstB ← readExact bytes 112 80
  let midB ← readExact bytes 192 80
  let patB ← readExact bytes 272 80
  let hdr0 : Hdr := {
    file_guid := file_guid
    file_schema := file_schema
    base_schema := base_schema
    creation_time := int32valList ctB
    study_id := int32valList sidB
    pat_last_name := _make_str lastB
    pat_first_name := _make_str firstB
    pat_middle_name := _make_str midB
    patient_id := _make_str patB
    sample_freq_raw := []
    num_channels := 0
    deltabits := 0
    phys_chan := []
    headbox_type := []
    headbox_sn := []
    headbox_sw_version := []
    dsp_hw_version := []
    dsp_sw_version := []
    discardbits := 0
    shorted := []
    frequency_factor := [] }
  if 7 ≤ file_schema then
    let sfB ← readExact bytes 352 8
    let ncB ← readExact bytes 360 4
    let nc := int32valList ncB
    if nc < 0 then
      -- a negative count makes `f.read`/`unpack` of the channel map fail
      throw "struct.error"
    let dbB ← readExact bytes 364 4
    let pcB ← readExact bytes 368 (4 * nc.toNat)
    let hbtB ← readExact bytes 4464 16
    let hbsB ← readExact bytes 4480 16
    let hswB ← readExact bytes 4496 40
    let dhwB ← readExact bytes 4536 10
    let dswB ← readExact bytes 4546 10
    let discB ← readExact bytes 4556 4
    let hdr1 : Hdr := { hdr0 with
      sample_freq_raw := sfB
      num_channels := nc
      deltabits := int32valList dbB
      phys_chan := i32List pcB
      headbox_type := i32List hbtB
      headbox_sn := i32List hbsB
      headbox_sw_version := _make_str hswB
      dsp_hw_version := _make_str dhwB
      dsp_sw_version := _make_str dswB
      discardbits := int32valList discB }
    if 8 ≤ file_schema then
      let shB ← readExact bytes 4560 2048
      let ffB ← readExact bytes 6608 2048
      return { hdr1 with shorted := i16List shB, frequency_factor := i16List ffB }
    else
      return hdr1
  else
    return hdr0

theorem sliceBytes_length (bytes : List Nat) (i n : Nat) :
    (sliceBytes bytes i n).length = min n (bytes.length - i) := by
  simp [sliceBytes]

theorem readExact_ok (bytes : List Nat) (i n : Nat) (h : i + n ≤ bytes.length) :
    readExact bytes i n = .ok (sliceBytes bytes i n) := by
  unfold readExact
  rw [if_pos]
  rw [sliceBytes_length]
  omega

/-- C6: `_read_hdr_file` fails hard — with `NotImplementedError`, never
returning a best-effort header — for every file whose 2-byte schema version
lies outside the supported set `{1, 7, 8, 9}`, and for every file whose
2-byte base-schema version differs from the fixed constant `1`. -/
theorem c6_unsupported_schema (bytes : List Nat) :
    ((sliceBytes bytes 16 2).length = 2 →
      ¬(u16 (sliceBytes bytes 16 2) = 1 ∨ u16 (sliceBytes bytes 16 2) = 7
        ∨ u16 (sliceBytes bytes 16 2) = 8 ∨ u16 (sliceBytes bytes 16 2) = 9) →
      _read_hdr_file bytes
        = .error ("NotImplementedError: Reading header not implemented for file_schema "
            ++ toString (u16 (sliceBytes bytes 16 2))))
    ∧ ((sliceBytes bytes 18 2).length = 2 →
      (u16 (sliceBytes bytes 16 2) = 1 ∨ u16 (sliceBytes bytes 16 2) = 7
        ∨ u16 (sliceBytes bytes 16 2) = 8 ∨ u16 (sliceBytes bytes 16 2) = 9) →
      u16 (sliceBytes bytes 18 2) ≠ 1 →
      _read_hdr_file bytes
        = .error ("NotImplementedError: Reading header not implemented for base_schema "
            ++ toString (u16 (sliceBytes bytes 18 2)))) := by
  constructor
  · intro h2 hbad
    have hlen : 18 ≤ bytes.length := by
      rw [sliceBytes_length] at h2
      omega
    unfold _read_hdr_file
    rw [readExact_ok bytes 0 16 (by omega), readExact_ok bytes 16 2 (by omega)]
    simp only [Except.bind, bind, if_pos hbad]
  · intro h2 hgood hbad
    have hlen : 20 ≤ bytes.length := by
      rw [sliceBytes_length] at h2
      omega
    unfold _read_hdr_file
    rw [readExact_ok bytes 0 16 (by omega), readExact_ok bytes 16 2 (by omega),
      readExact_ok bytes 18 2 (by omega)]
    simp only [Except.bind, bind, if_neg (not_not_intro hgood), if_pos hbad]
    rfl

/-- Witness for C6: a header whose schema version is `2` is rejected with
the schema error; a schema-7 header whose base-schema version is `5` is
rejected with the base-schema error. -/
theorem c6_unsupported_schema_witness :
    _read_hdr_file (List.replicate 16 0 ++ [2, 0])
      = .error ("NotImplementedError: Reading header not implemented for file_schema "
          ++ toString (u16 (sliceBytes (List.replicate 16 0 ++ [2, 0]) 16 2)))
    ∧ _read_hdr_file (List.replicate 16 0 ++ [7, 0, 5, 0])
      = .error ("NotImplementedError: Reading header not implemented for base_schema "
          ++ toString (u16 (sliceBytes (List.replicate 16 0 ++ [7, 0, 5, 0]) 18 2))) :=
  ⟨(c6_unsupported_schema (List.replicate 16 0 ++ [2, 0])).1 (by decide) (by decide),
   (c6_unsupported_schema (List.replicate 16 0 ++ [7, 0, 5, 0])).2 (by decide)
     (by decide) (by decide)⟩

/-! ### C8: the decoded-segment cache -/

/-- The per-file inputs `_read_erd` takes from the segment's header (the
source re-reads them from the file on each call; they are fixed per file). -/
structure ErdFile where
  name : String
  schema : Nat
  nChan : Nat
  headboxType : Int
  discardbits : Int
  bytes : List Nat

/-- The temporary directory of decoded-segment `memmap` files, as an
association list keyed by file basename; the stored value is the raw int32
matrix (including a partially written one left behind by a failed decode).
-/
abbrev Cache : Type := List (String × Buf)

def lookupCache : Cache → String → Option Buf
  | [], _ => none
  | (k, v) :: rest, key => if k = key then some v else lookupCache rest key

def cacheKeys (σ : Cache) : List String := σ.map Prod.fst

/-- The calibrated output `expand_dims(factor, 1) * output`. -/
def calibrate (factor : List ℚ) (buf : Buf) : Nat → Nat → ℚ :=
  fun c s => factor.getD c 0 * (buf c s : ℚ)

/-- Is the result a success? (`Bool`-valued, for decidable witnesses.) -/
def isOkB {ε α : Type} : Except ε α → Bool
  | .ok _ => true
  | .error _ => false

/-- Source `_read_erd` with the `memmap` cache of `temp_dir` made explicit: when
the memmap file exists it is read back (`mode='c'`) without decoding;
otherwise a fresh zero-filled memmap is created (`mode='w+'`), decoded
into, and persists — also when the decode raises, in which case the
partially written file remains in the cache.  The calibration factor is
computed after the decode, as in the source.  Returns the new cache, the
result, and whether this call ran a decode. -/
def read_erd_cached (σ : Cache) (f : ErdFile) (nSamples : Nat) :
    Cache × Except String (Nat → Nat → ℚ) × Bool :=
  match lookupCache σ f.name with
  | some raw =>
    (σ,
     match _calculate_conversion f.headboxType f.discardbits f.nChan with
     | .error e => .error e
     | .ok factor => .ok (calibrate factor raw),
     false)
  | none =>
    match read_erd_raw f.schema f.nChan nSamples f.bytes with
    | .ok raw =>
      (σ ++ [(f.name, raw)],
       match _calculate_conversion f.headboxType f.discardbits f.nChan with
       | .error e => .error e
       | .ok factor => .ok (calibrate factor raw),
       true)
    | .error (e, partialRaw) =>
      (σ ++ [(f.name, partialRaw)], .error e, true)

/-- A sequence of `_read_erd` calls threaded through the cache; besides the
final cache it returns, per call, the file name and whether that call
decoded. -/
def runReads (σ : Cache) : List (ErdFile × Nat) → Cache × List (String × Bool)
  | [] => (σ, [])
  | (f, n) :: rest =>
    ((runReads (read_erd_cached σ f n).1 rest).1,
     (f.name, (read_erd_cached σ f n).2.2)
       :: (runReads (read_erd_cached σ f n).1 rest).2)

/-- Number of calls in a request sequence that decode the segment named
`s`. -/
def decodesFor (s : String) (σ : Cache) (reqs : List (ErdFile × Nat)) : Nat :=
  ((runReads σ reqs).2.filter (fun p => decide (p.1 = s) && p.2)).length

theorem read_erd_cached_hit (σ : Cache) (f : ErdFile) (n : Nat) (raw : Buf)
    (h : lookupCache σ f.name = some raw) :
    read_erd_cached σ f n
      = (σ,
         match _calculate_conversion f.headboxType f.discardbits f.nChan with
         | .error e => .error e
         | .ok factor => .ok (calibrate factor raw),
         false) := by
  unfold read_erd_cached
  rw [h]

theorem read_erd_cached_miss_ok (σ : Cache) (f : ErdFile) (n : Nat) (raw : Buf)
    (hl : lookupCache σ f.name = none)
    (hd : read_erd_raw f.schema f.nChan n f.bytes = .ok raw) :
    read_erd_cached σ f n
      = (σ ++ [(f.name, raw)],
         match _calculate_conversion f.headboxType f.discardbits f.nChan with
         | .error e => .error e
         | .ok factor => .ok (calibrate factor raw),
         true) := by
  unfold read_erd_cached
  rw [hl, hd]

theorem read_erd_cached_miss_err (σ : Cache) (f : ErdFile) (n : Nat)
    (msg : String) (pb : Buf)
    (hl : lookupCache σ f.name = none)
    (hd : read_erd_raw f.schema f.nChan n f.bytes = .error (msg, pb)) :
    read_erd_cached σ f n = (σ ++ [(f.name, pb)], .error msg, true) := by
  unfold read_erd_cached
  rw [hl, hd]

theorem runReads_cons (σ : Cache) (f : ErdFile) (n : Nat)
    (rest : List (ErdFile × Nat)) :
    runReads σ ((f, n) :: rest)
      = ((runReads (read_erd_cached σ f n).1 rest).1,
         (f.name, (read_erd_cached σ f n).2.2)
           :: (runReads (read_erd_cached σ f n).1 rest).2) := rfl

theorem lookup_append_of_some (σ : Cache) (k : String) (b : Buf) (l : Cache)
    (h : lookupCache σ k = some b) : lookupCache (σ ++ l) k = some b := by
  induction σ with
  | nil => simp [lookupCache] at h
  | cons p rest ih =>
    obtain ⟨k0, v0⟩ := p
    by_cases hk : k0 = k
    · simp only [lookupCache, List.cons_append, if_pos hk] at h ⊢
      exact h
    · simp only [lookupCache, List.cons_append, if_neg hk] at h ⊢
      exact ih h

theorem lookup_append_single_none (σ : Cache) (k key : String) (v : Buf)
    (h : lookupCache σ key = none) :
    lookupCache (σ ++ [(k, v)]) key = if k = key then some v else none := by
  induction σ with
  | nil => rfl
  | cons p rest ih =>
    obtain ⟨k0, v0⟩ := p
    by_cases hk : k0 = key
    · simp only [lookupCache, if_pos hk] at h
      exact absurd h (by simp)
    · simp only [lookupCache, List.cons_append, if_neg hk] at h ⊢
      exact ih h

theorem read_erd_cached_lookup_stable (σ : Cache) (f : ErdFile) (n : Nat)
    (key : String) (b : Buf) (h : lookupCache σ key = some b) :
    lookupCache (read_erd_cached σ f n).1 key = some b := by
  cases hl : lookupCache σ f.name with
  | some raw =>
    rw [read_erd_cached_hit σ f n raw hl]
    exact h
  | none =>
    cases hd : read_erd_raw f.schema f.nChan n f.bytes with
    | ok raw =>
      rw [read_erd_cached_miss_ok σ f n raw hl hd]
      exact lookup_append_of_some _ _ _ _ h
    | error e =>
      obtain ⟨msg, pb⟩ := e
      rw [read_erd_cached_miss_err σ f n msg pb hl hd]
      exact lookup_append_of_some _ _ _ _ h

theorem runReads_lookup_stable (key : String) (b : Buf) :
    ∀ (l : List (ErdFile × Nat)) (σ : Cache),
      lookupCache σ key = some b →
      lookupCache (runReads σ l).1 key = some b := by
  intro l
  induction l with
  | nil => intro σ h; exact h
  | cons r rest ih =>
    intro σ h
    obtain ⟨f, n⟩ := r
    rw [runReads_cons]
    exact ih _ (read_erd_cached_lookup_stable σ f n key b h)

theorem mem_cacheKeys_iff (σ : Cache) (s : String) :
    s ∈ cacheKeys σ ↔ ∃ b, lookupCache σ s = some b := by
  induction σ with
  | nil => simp [cacheKeys, lookupCache]
  | cons p rest ih =>
    obtain ⟨k0, v0⟩ := p
    by_cases hk : k0 = s
    · subst hk
      simp [cacheKeys, lookupCache]
    · simp only [cacheKeys, List.map_cons, List.mem_cons, lookupCache, if_neg hk]
      rw [show List.map Prod.fst rest = cacheKeys rest from rfl]
      constructor
      · rintro (h | h)
        · exact absurd h.symm hk
        · exact ih.mp h
      · intro h
        exact Or.inr (ih.mpr h)

/-- C8: (1) once a call on file `f` has returned a matrix, any later call on
`f` — with arbitrary other reads in between — returns the **same** matrix
without decoding again (bit-identical results, a single shared decode);
(2) across any request sequence, the number of decodes of a given segment
name is at most one (zero if it is already cached). -/
theorem c8_cache_at_most_one_decode (σ : Cache) (f : ErdFile) (n : Nat) :
    (isOkB (read_erd_cached σ f n).2.1 = true →
      ∀ l : List (ErdFile × Nat),
        (read_erd_cached (runReads (read_erd_cached σ f n).1 l).1 f n).2.1
          = (read_erd_cached σ f n).2.1
        ∧ (read_erd_cached (runReads (read_erd_cached σ f n).1 l).1 f n).2.2
          = false)
    ∧ (∀ s : String, ∀ reqs : List (ErdFile × Nat),
        decodesFor s σ reqs ≤ if s ∈ cacheKeys σ then 0 else 1) := by
  constructor
  · intro hok l
    cases hl : lookupCache σ f.name with
    | some raw =>
      have h1 := read_erd_cached_hit σ f n raw hl
      have hst : lookupCache (runReads (read_erd_cached σ f n).1 l).1 f.name
          = some raw :=
        runReads_lookup_stable f.name raw l _
          (by rw [h1]; exact hl)
      have h2 := read_erd_cached_hit _ f n raw hst
      rw [h2, h1]
      exact ⟨rfl, rfl⟩
    | none =>
      cases hd : read_erd_raw f.schema f.nChan n f.bytes with
      | ok raw =>
        have h1 := read_erd_cached_miss_ok σ f n raw hl hd
        have hins : lookupCache (read_erd_cached σ f n).1 f.name = some raw := by
          rw [h1]
          rw [lookup_append_single_none σ f.name f.name raw hl, if_pos rfl]
        have hst : lookupCache (runReads (read_erd_cached σ f n).1 l).1 f.name
            = some raw :=
          runReads_lookup_stable f.name raw l _ hins
        have h2 := read_erd_cached_hit _ f n raw hst
        rw [h2, h1]
        exact ⟨rfl, rfl⟩
      | error e =>
        obtain ⟨msg, pb⟩ := e
        rw [read_erd_cached_miss_err σ f n msg pb hl hd] at hok
        simp [isOkB] at hok
  · intro s reqs
    induction reqs generalizing σ with
    | nil =>
      simp [decodesFor, runReads]
    | cons r rest ih =>
      obtain ⟨f, n⟩ := r
      have hstep : decodesFor s σ ((f, n) :: rest)
          = (if f.name = s ∧ (read_erd_cached σ f n).2.2 = true then 1 else 0)
            + decodesFor s (read_erd_cached σ f n).1 rest := by
        unfold decodesFor
        rw [runReads_cons]
        simp only [List.filter_cons]
        by_cases hfs : f.name = s ∧ (read_erd_cached σ f n).2.2 = true
        · rw [if_pos (by simp [hfs.1, hfs.2]), if_pos hfs]
          simp [Nat.add_comm]
        · rw [if_neg (by
              simp only [Bool.and_eq_true, decide_eq_true_iff]
              exact fun hc => hfs hc), if_neg hfs]
          simp
      rw [hstep]
      cases hl : lookupCache σ f.name with
      | some raw =>
        have h1 := read_erd_cached_hit σ f n raw hl
        rw [if_neg (by
          rintro ⟨_, hc⟩
          rw [h1] at hc
          exact absurd hc (by simp))]
        have hσ1 : (read_erd_cached σ f n).1 = σ := by rw [h1]
        rw [hσ1]
        simpa using ih σ
      | none =>
        have hσ1 : ∃ v, (read_erd_cached σ f n).1 = σ ++ [(f.name, v)] := by
          cases hd : read_erd_raw f.schema f.nChan n f.bytes with
          | ok raw =>
            rw [read_erd_cached_miss_ok σ f n raw hl hd]
            exact ⟨raw, rfl⟩
          | error e =>
            obtain ⟨msg, pb⟩ := e
            rw [read_erd_cached_miss_err σ f n msg pb hl hd]
            exact ⟨pb, rfl⟩
        obtain ⟨v, hv⟩ := hσ1
        have hkeys1 : cacheKeys (σ ++ [(f.name, v)]) = cacheKeys σ ++ [f.name] := by
          simp [cacheKeys]
        have hnotin : f.name ∉ cacheKeys σ := by
          intro hs
          obtain ⟨b, hb⟩ := (mem_cacheKeys_iff σ f.name).mp hs
          rw [hl] at hb
          exact absurd hb (by simp)
        by_cases hfs : f.name = s
        · subst hfs
          rw [if_neg hnotin]
          have hmem1 : f.name ∈ cacheKeys (read_erd_cached σ f n).1 := by
            rw [hv, hkeys1]
            simp
          have hih := ih (read_erd_cached σ f n).1
          rw [if_pos hmem1] at hih
          have hhead : (if f.name = f.name ∧ (read_erd_cached σ f n).2.2 = true
              then 1 else 0) ≤ 1 := by
            split <;> omega
          omega
        · rw [if_neg (by rintro ⟨hc, _⟩; exact hfs hc)]
          have hcond : s ∈ cacheKeys (read_erd_cached σ f n).1 ↔ s ∈ cacheKeys σ := by
            rw [hv, hkeys1]
            simp only [List.mem_append, List.mem_singleton]
            constructor
            · rintro (h | h)
              · exact h
              · exact absurd h.symm hfs
            · exact Or.inl
          have hih := ih (read_erd_cached σ f n).1
          by_cases hσs : s ∈ cacheKeys σ
          · rw [if_pos (hcond.mpr hσs)] at hih
            rw [if_pos hσs]
            omega
          · rw [if_neg (fun hc => hσs (hcond.mp hc))] at hih
            rw [if_neg hσs]
            omega

/-- Witness for C8: a trivial segment (zero channels, zero samples,
headbox 1) read from the empty cache succeeds; an immediately repeated call
returns the identical result without decoding, and the empty request
sequence performs no decode of segment "a". -/
theorem c8_cache_at_most_one_decode_witness :
    ((read_erd_cached
        (runReads (read_erd_cached [] ⟨"a", 7, 0, 1, 0, []⟩ 0).1 []).1
        ⟨"a", 7, 0, 1, 0, []⟩ 0).2.1
      = (read_erd_cached [] ⟨"a", 7, 0, 1, 0, []⟩ 0).2.1
    ∧ (read_erd_cached
        (runReads (read_erd_cached [] ⟨"a", 7, 0, 1, 0, []⟩ 0).1 []).1
        ⟨"a", 7, 0, 1, 0, []⟩ 0).2.2 = false)
    ∧ decodesFor "a" [] [] ≤ if "a" ∈ cacheKeys [] then 0 else 1 :=
  ⟨(c8_cache_at_most_one_decode [] ⟨"a", 7, 0, 1, 0, []⟩ 0).1 rfl [],
   (c8_cache_at_most_one_decode [] ⟨"a", 7, 0, 1, 0, []⟩ 0).2 "a" []⟩

/-! ### C9: video-to-sample correlation (`Ktlx._read_movies`) -/

/-- Python `int()`: truncation toward zero. -/
def int_trunc (q : ℚ) : Int :=
  if 0 ≤ q then ⌊q⌋ else -⌊-q⌋

/-- A parsed `.vtc` entry: movie file name and absolute start/end times
(in seconds, as rationals — the claims concern the structure of the
correlation, not IEEE rounding). -/
structure VtcEntry where
  name : String
  startTime : ℚ
  endTime : ℚ

/-- One entry of the `movies` output of `_read_movies`. -/
structure Movie where
  filename : String
  start_sample : Int
  end_sample : Int

/-- Source `Ktlx._read_movies`: recompute the effective sample rate from the
**first and last** sync point only, then project each video segment's
absolute start/end time onto the sample axis, subtracting the first
segment's `start_stamp`.  `sampleStamp[-1]` on an empty sync file raises
`IndexError`; a zero time span raises `ZeroDivisionError`. -/
def _read_movies (dir : String) (sampleStamp : List Int) (sampleTime : List ℚ)
    (vtc : List VtcEntry) (startStamp0 : Int) :
    Except String (List Movie × ℚ) :=
  match sampleStamp, sampleTime with
  | [], _ => .error "IndexError"
  | _, [] => .error "IndexError"
  | s0 :: srest, t0 :: trest =>
    if trest.getLastD t0 - t0 = 0 then .error "ZeroDivisionError"
    else
      .ok ((vtc.map (fun v =>
        { filename := dir ++ "/" ++ v.name
          start_sample := int_trunc ((v.startTime - t0)
            * (((srest.getLastD s0 - s0 : Int) : ℚ) / (trest.getLastD t0 - t0))
            - (startStamp0 : ℚ))
          end_sample := int_trunc ((v.endTime - t0)
            * (((srest.getLastD s0 - s0 : Int) : ℚ) / (trest.getLastD t0 - t0))
            - (startStamp0 : ℚ)) })),
        ((srest.getLastD s0 - s0 : Int) : ℚ) / (trest.getLastD t0 - t0))

/-- C9: the correlation uses only the first and last sync point — the
effective rate is `(lastStamp − firstStamp) / (lastTime − firstTime)`, each
video segment's start/end time is projected through this single linear rate
offset-corrected by the first segment's starting sample stamp, and the
result is unchanged under any modification of the interior sync points. -/
theorem c9_movies (sampleStamp : List Int) (sampleTime : List ℚ)
    (vtc : List VtcEntry) (startStamp0 : Int) (dir : String)
    (hs : sampleStamp ≠ []) (ht : sampleTime ≠ [])
    (hne : sampleTime.getLastD 0 ≠ sampleTime.headD 0) :
    _read_movies dir sampleStamp sampleTime vtc startStamp0
      = .ok ((vtc.map (fun v =>
          { filename := dir ++ "/" ++ v.name
            start_sample := int_trunc ((v.startTime - sampleTime.headD 0)
              * (((sampleStamp.getLastD 0 - sampleStamp.headD 0 : Int) : ℚ)
                  / (sampleTime.getLastD 0 - sampleTime.headD 0))
              - (startStamp0 : ℚ))
            end_sample := int_trunc ((v.endTime - sampleTime.headD 0)
              * (((sampleStamp.getLastD 0 - sampleStamp.headD 0 : Int) : ℚ)
                  / (sampleTime.getLastD 0 - sampleTime.headD 0))
              - (startStamp0 : ℚ)) })),
          ((sampleStamp.getLastD 0 - sampleStamp.headD 0 : Int) : ℚ)
            / (sampleTime.getLastD 0 - sampleTime.headD 0))
    ∧ ∀ (sampleStamp' : List Int) (sampleTime' : List ℚ),
        sampleStamp' ≠ [] → sampleTime' ≠ [] →
        sampleStamp'.headD 0 = sampleStamp.headD 0 →
        sampleStamp'.getLastD 0 = sampleStamp.getLastD 0 →
        sampleTime'.headD 0 = sampleTime.headD 0 →
        sampleTime'.getLastD 0 = sampleTime.getLastD 0 →
        _read_movies dir sampleStamp' sampleTime' vtc startStamp0
          = _read_movies dir sampleStamp sampleTime vtc startStamp0 := by
  have main : ∀ (ss : List Int) (tt : List ℚ), ss ≠ [] → tt ≠ [] →
      tt.getLastD 0 ≠ tt.headD 0 →
      _read_movies dir ss tt vtc startStamp0
        = .ok ((vtc.map (fun v =>
            { filename := dir ++ "/" ++ v.name
              start_sample := int_trunc ((v.startTime - tt.headD 0)
                * (((ss.getLastD 0 - ss.headD 0 : Int) : ℚ)
                    / (tt.getLastD 0 - tt.headD 0))
                - (startStamp0 : ℚ))
              end_sample := int_trunc ((v.endTime - tt.headD 0)
                * (((ss.getLastD 0 - ss.headD 0 : Int) : ℚ)
                    / (tt.getLastD 0 - tt.headD 0))
                - (startStamp0 : ℚ)) })),
            ((ss.getLastD 0 - ss.headD 0 : Int) : ℚ)
              / (tt.getLastD 0 - tt.headD 0)) := by
    intro ss tt hss htt hnett
    cases ss with
    | nil => exact absurd rfl hss
    | cons s0 srest =>
      cases tt with
      | nil => exact absurd rfl htt
      | cons t0 trest =>
        simp only [List.getLastD_cons, List.headD_cons] at hnett ⊢
        unfold _read_movies
        simp only []
        rw [if_neg (sub_ne_zero.mpr hnett)]
  constructor
  · exact main sampleStamp sampleTime hs ht hne
  · intro ss' tt' hss' htt' e1 e2 e3 e4
    rw [main ss' tt' hss' htt' (by rw [e3, e4]; exact hne),
      main sampleStamp sampleTime hs ht hne, e1, e2, e3, e4]

/-- Witness for C9: sync points `(0, 0s)` and `(1000, 10s)` give the rate
`100` samples/second; a video running from second 2 to second 3 with first
`start_stamp = 5` maps to samples `195..295`. -/
theorem c9_movies_witness :
    _read_movies "d" [0, 1000] [0, 10] ([⟨"m.avi", 2, 3⟩] : List VtcEntry) 5
      = .ok ((([⟨"m.avi", 2, 3⟩] : List VtcEntry).map (fun v =>
          { filename := "d" ++ "/" ++ v.name
            start_sample := int_trunc ((v.startTime - ([0, 10] : List ℚ).headD 0)
              * (((([0, 1000] : List Int).getLastD 0
                    - ([0, 1000] : List Int).headD 0 : Int) : ℚ)
                  / (([0, 10] : List ℚ).getLastD 0 - ([0, 10] : List ℚ).headD 0))
              - ((5 : Int) : ℚ))
            end_sample := int_trunc ((v.endTime - ([0, 10] : List ℚ).headD 0)
              * (((([0, 1000] : List Int).getLastD 0
                    - ([0, 1000] : List Int).headD 0 : Int) : ℚ)
                  / (([0, 10] : List ℚ).getLastD 0 - ([0, 10] : List ℚ).headD 0))
              - ((5 : Int) : ℚ)) })),
          ((([0, 1000] : List Int).getLastD 0
              - ([0, 1000] : List Int).headD 0 : Int) : ℚ)
            / (([0, 10] : List ℚ).getLastD 0 - ([0, 10] : List ℚ).headD 0)) :=
  (c9_movies [0, 1000] [0, 10] ([⟨"m.avi", 2, 3⟩] : List VtcEntry) 5 "d"
    (by decide) (by decide) (by norm_num)).1

end Ktlx